import Mathlib

/-!
Verification development for the cluster-demo repository.

The notebooks import `detail.tdigest.TDigest`; the file `tdigest.py` is
not part of the excerpted sources, so the digest data structure is
modelled from the specification (each such definition is marked
`Modelled from the spec:`).  The anomaly detectors, the
`hashing_frequency` helper and `normarray` appear verbatim in the
notebook sources and are embedded directly from them.

Real-valued scalars of the digest are modelled as rationals, so every
digest operation is executable; the `-ln`/Euclidean-norm layers of the
consumer code are transcendental and live in `ℝ`.
-/

/-- A centroid: a running mean together with the total absorbed weight
(spec §3). -/
structure Centroid where
  mean : ℚ
  weight : ℚ
  deriving DecidableEq, Repr

/-- Modelled from the spec: the digest state (§3) — the compression
parameter and the centroid sequence kept sorted by ascending mean.
`detail/tdigest.py` is referenced by the notebooks but missing from the
excerpted sources.  The total weight is the sum of the centroid
weights. -/
structure TDigest where
  compression : ℚ
  cs : List Centroid
  deriving DecidableEq, Repr

/-- Sum of the weights of a centroid list. -/
def wsum (cs : List Centroid) : ℚ := (cs.map Centroid.weight).sum

/-- Total internal weight `N = Σ weight_i` (spec §3). -/
def TDigest.totalWeight (d : TDigest) : ℚ := wsum d.cs

/-- Modelled from the spec: `new` (§4.1) — an empty centroid sequence
and zero total weight. -/
def TDigest.new (compression : ℚ) : TDigest := ⟨compression, []⟩

/-- Modelled from the spec: in-place absorption of `(x, w)` into a
centroid (§3): `mean' = mean + (x - mean) * w / (weight + w)`,
`weight' = weight + w`. -/
def absorbC (c : Centroid) (x w : ℚ) : Centroid :=
  ⟨c.mean + (x - c.mean) * w / (c.weight + w), c.weight + w⟩

/-- Modelled from the spec: merging two whole centroids during
re-compression (§4.1 step 4) — weighted average of the means, sum of
the weights. -/
def mergeC (a b : Centroid) : Centroid :=
  ⟨(a.mean * a.weight + b.mean * b.weight) / (a.weight + b.weight),
   a.weight + b.weight⟩

/-- Modelled from the spec: the per-centroid weight bound at cumulative
weight fraction `q` (§3; the convention left open in §9 is fixed here as
the standard `4·δ·N·q·(1-q)` with `δ` the compression parameter). -/
def sizeBound (δ N pre cw : ℚ) : ℚ :=
  ((pre + cw / 2) / N) * (1 - (pre + cw / 2) / N) * (4 * δ * N)

/-- Whether a centroid sitting after cumulative weight `pre` may absorb
`w` more weight without exceeding its size bound. -/
def fits (δ N pre : ℚ) (c : Centroid) (w : ℚ) : Bool :=
  decide (c.weight + w ≤ sizeBound δ N pre c.weight)

/-- Modelled from the spec: the insertion walk of `update` (§4.1 steps
1–3).  `pre` is the cumulative weight strictly before the current
suffix.  The observation is absorbed into a bracketing centroid
(nearest first, the tie between equidistant neighbours broken towards
the lower mean, a centroid with an equal mean absorbing outright) when
the size bound allows, and inserted as a fresh centroid at its sorted
position otherwise. -/
def updGo (δ N x w : ℚ) : ℚ → List Centroid → List Centroid
  | _, [] => [⟨x, w⟩]
  | pre, [a] =>
    if x = a.mean then [absorbC a x w]
    else if fits δ N pre a w then [absorbC a x w]
    else if x < a.mean then [⟨x, w⟩, a]
    else [a, ⟨x, w⟩]
  | pre, a :: b :: rest =>
    if x = a.mean then absorbC a x w :: b :: rest
    else if x < a.mean then
      if fits δ N pre a w then absorbC a x w :: b :: rest
      else ⟨x, w⟩ :: a :: b :: rest
    else if x < b.mean then
      if x - a.mean ≤ b.mean - x then
        if fits δ N pre a w then absorbC a x w :: b :: rest
        else if fits δ N (pre + a.weight) b w then a :: absorbC b x w :: rest
        else a :: ⟨x, w⟩ :: b :: rest
      else
        if fits δ N (pre + a.weight) b w then a :: absorbC b x w :: rest
        else if fits δ N pre a w then absorbC a x w :: b :: rest
        else a :: ⟨x, w⟩ :: b :: rest
    else a :: updGo δ N x w (pre + a.weight) (b :: rest)

/-- Modelled from the spec: one greedy pass of the periodic
re-compression (§4.1 step 4) — the mean-sorted centroids are re-absorbed
left to right, a run being closed as soon as absorbing the next centroid
would push its weight past `bound`. -/
def compressLoop (bound : ℚ) : Centroid → List Centroid → List Centroid
  | cur, [] => [cur]
  | cur, c :: rest =>
    if cur.weight + c.weight ≤ bound then compressLoop bound (mergeC cur c) rest
    else cur :: compressLoop bound c rest

/-- Modelled from the spec: the centroid-count threshold implied by the
compression parameter (§4.1 step 4), proportional to `1/δ`. -/
def maxCentroids (δ : ℚ) : ℕ := 2 * Nat.ceil (1 / δ) + 2

/-- Modelled from the spec: rebuild the centroid set, giving each merged
run at most a `δ` fraction of the total weight. -/
def compressCs (δ : ℚ) : List Centroid → List Centroid
  | [] => []
  | c :: rest => compressLoop (δ * wsum (c :: rest)) c rest

/-- Modelled from the spec: `update(x, w)` (§4.1) — absorb or insert the
observation, then re-compress when the centroid count has grown past the
threshold implied by the compression parameter. -/
def TDigest.update (d : TDigest) (x w : ℚ) : TDigest :=
  let cs1 := updGo d.compression (wsum d.cs + w) x w 0 d.cs
  if maxCentroids d.compression < cs1.length then
    ⟨d.compression, compressCs d.compression cs1⟩
  else
    ⟨d.compression, cs1⟩

/-- The digest obtained from `new δ` by the given sequence of
`update (x, w)` calls. -/
def reach (δ : ℚ) (xs : List (ℚ × ℚ)) : TDigest :=
  xs.foldl (fun d p => d.update p.1 p.2) (TDigest.new δ)

/-- Cumulative interpolation nodes: each centroid contributes the node
`(mean, cumulative weight through it / N)`. -/
def cdfPointsAux (N : ℚ) : ℚ → List Centroid → List (ℚ × ℚ)
  | _, [] => []
  | pre, c :: rest =>
    (c.mean, (pre + c.weight) / N) :: cdfPointsAux N (pre + c.weight) rest

/-- The interpolation nodes of a digest. -/
def TDigest.cdfPoints (d : TDigest) : List (ℚ × ℚ) :=
  cdfPointsAux (wsum d.cs) 0 d.cs

/-- Piecewise-linear interpolation through a list of nodes: `0` before
the first node, the last ordinate after the last node. -/
def interpolate : List (ℚ × ℚ) → ℚ → ℚ
  | [], _ => 0
  | [p], x => if x < p.1 then 0 else p.2
  | p :: q :: rest, x =>
    if x < p.1 then 0
    else if x < q.1 then p.2 + (x - p.1) / (q.1 - p.1) * (q.2 - p.2)
    else interpolate (q :: rest) x

/-- Inverse piecewise-linear interpolation through a list of nodes. -/
def quantileList : List (ℚ × ℚ) → ℚ → ℚ
  | [], _ => 0
  | [p], _ => p.1
  | p :: q :: rest, t =>
    if t ≤ p.2 then p.1
    else if t ≤ q.2 then p.1 + (t - p.2) / (q.2 - p.2) * (q.1 - p.1)
    else quantileList (q :: rest) t

/-- Modelled from the spec: `cdf(x)` (§4.1) — 0 below the lowest mean,
1 above the highest, linear interpolation of cumulative weight between
the bracketing centroids otherwise.  A pure function of the digest
state, so queries are deterministic by construction. -/
def TDigest.cdf (d : TDigest) (x : ℚ) : ℚ := interpolate d.cdfPoints x

/-- Modelled from the spec: `quantile(q)` (§4.1), the inverse of `cdf`
by inverse linear interpolation over the same nodes; aliased `cdfi` in
the notebooks. -/
def TDigest.quantile (d : TDigest) (q : ℚ) : ℚ := quantileList d.cdfPoints q

/-- `cdfi`, the notebooks' name for `quantile`. -/
def TDigest.cdfi (d : TDigest) (q : ℚ) : ℚ := d.quantile q

/-- A float64 argument as seen by input validation: NaN, an infinity, or
a finite value (finite values modelled as rationals). -/
inductive FVal where
  | nan : FVal
  | posInf : FVal
  | negInf : FVal
  | fin : ℚ → FVal
  deriving DecidableEq, Repr

/-- The error taxonomy of the spec (§7): a single `InvalidArgument`
category. -/
inductive TDError where
  | invalidArgument : TDError
  deriving DecidableEq, Repr

/-- A compression argument is well-formed when finite and positive. -/
def validNewArg : FVal → Bool
  | .fin q => decide (0 < q)
  | _ => false

/-- An update argument pair is well-formed when the value is finite and
the weight is finite and positive. -/
def validUpdArgs : FVal → FVal → Bool
  | .fin _, .fin wq => decide (0 < wq)
  | _, _ => false

/-- A quantile argument is well-formed when finite and in `[0, 1]`. -/
def validQuantArg : FVal → Bool
  | .fin q => decide (0 ≤ q ∧ q ≤ 1)
  | _ => false

/-- Modelled from the spec (§4.1, §7): `new` with fail-fast input
checking. -/
def TDigest.newChecked (c : FVal) : Except TDError TDigest :=
  match c with
  | .fin q => if 0 < q then .ok (TDigest.new q) else .error .invalidArgument
  | _ => .error .invalidArgument

/-- Modelled from the spec (§4.1, §7): `update` with fail-fast input
checking. -/
def TDigest.updateChecked (d : TDigest) (x w : FVal) : Except TDError TDigest :=
  match x, w with
  | .fin xq, .fin wq =>
    if 0 < wq then .ok (d.update xq wq) else .error .invalidArgument
  | _, _ => .error .invalidArgument

/-- Modelled from the spec (§4.1, §7): `quantile` with fail-fast input
checking. -/
def TDigest.quantileChecked (d : TDigest) (q : FVal) : Except TDError ℚ :=
  match q with
  | .fin qq =>
    if 0 ≤ qq ∧ qq ≤ 1 then .ok (d.quantile qq) else .error .invalidArgument
  | _ => .error .invalidArgument

/-- An `update` call as issued by a caller. -/
structure UpdCall where
  x : FVal
  w : FVal
  deriving DecidableEq, Repr

/-- The caller-visible state transition of one `update` call: a
successful call replaces the digest, a failed call leaves it as it
was. -/
def applyCall (d : TDigest) (c : UpdCall) : TDigest :=
  match d.updateChecked c.x c.w with
  | .ok d2 => d2
  | .error _ => d

/-- Run a sequence of `update` calls against a digest. -/
def runCalls (d : TDigest) (l : List UpdCall) : TDigest := l.foldl applyCall d

/-- The notebooks' logarithm floor `1e-100`. -/
noncomputable def floorEps : ℝ := ((10 : ℝ) ^ (100 : ℕ))⁻¹

/-- `TDigestAnomalyDetector.anomaly` from
`01-t-digest-anomaly-detection.ipynb` and `33-clusterdemo-train.ipynb`:
the negative log of the tail probability,
`-log(max(1 - cdf(x), 1e-100))`. -/
noncomputable def TDigestAnomalyDetector.anomaly (d : TDigest) (x : ℚ) : ℝ :=
  -Real.log (max (1 - ((d.cdf x : ℚ) : ℝ)) floorEps)

/-- `ExtremeValueAnomalyDetector.anomaly` from the extreme-values
notebook: `-log(max(1 - cdf(xmax)^n, 1e-100))`. -/
noncomputable def ExtremeValueAnomalyDetector.anomaly
    (d : TDigest) (xmax : ℚ) (n : ℕ) : ℝ :=
  -Real.log (max (1 - ((d.cdf xmax : ℚ) : ℝ) ^ n) floorEps)

/-- Python's `s.split(" ")`: cut at every single space, keeping empty
pieces. -/
def pySplit (s : String) : List String := s.split (fun c => c = ' ')

/-- The two input shapes accepted by the `hf` closure of
`hashing_frequency`: a space-delimited string or a token list. -/
inductive HFInput where
  | str : String → HFInput
  | toks : List String → HFInput

/-- The token list seen by the body of the `hf` closure: a string input
is pre-split on single spaces, a token list passes through. -/
def hfWords : HFInput → List String
  | .str s => pySplit s
  | .toks l => l

/-- `hsig[i] += 1.0`. -/
def incAt (v : List ℚ) (i : ℕ) : List ℚ := v.set i (v.getD i 0 + 1)

/-- The counting phase of the `hf` closure: a zero vector of size
`vecsize` in which every non-empty token bumps slot `h(term) % vecsize`. -/
def hfCounts (vecsize : ℕ) (h : String → ℕ) (ws : List String) : List ℚ :=
  (ws.filter (fun wrd => 0 < wrd.length)).foldl
    (fun acc term => incAt acc (h term % vecsize))
    (List.replicate vecsize 0)

/-- Sum of squares of a rational vector (the square of its Euclidean
norm). -/
def sumSq (v : List ℚ) : ℚ := (v.map (fun a => a * a)).sum

/-- Sum of squares of a real vector. -/
noncomputable def sumSqR (v : List ℝ) : ℝ := (v.map (fun a => a * a)).sum

/-- `hashing_frequency(vecsize, h, norm)` from
`05-clustering-anomaly-detection.ipynb` and
`33-clusterdemo-train.ipynb`: the returned closure `hf` pre-splits a
string input on single spaces, counts hashed non-empty tokens, and
rescales by `z = ‖hsig‖ / norm` when `z > 0`. -/
noncomputable def hashing_frequency (vecsize : ℕ) (h : String → ℕ) (norm : ℚ)
    (input : HFInput) : List ℝ :=
  let hsig := hfCounts vecsize h (hfWords input)
  let z : ℝ := Real.sqrt ((sumSq hsig : ℚ) : ℝ) / ((norm : ℚ) : ℝ)
  if 0 < z then hsig.map (fun q => ((q : ℚ) : ℝ) / z)
  else hsig.map (fun q => ((q : ℚ) : ℝ))

/-- `normarray` from `05-clustering-anomaly-detection.ipynb` (and the
unnamed drift notebook): divide the vector by its Euclidean norm only
when that norm is positive. -/
noncomputable def normarray (v : List ℚ) : List ℝ :=
  let z : ℝ := Real.sqrt ((sumSq v : ℚ) : ℝ)
  if 0 < z then v.map (fun q => ((q : ℚ) : ℝ) / z)
  else v.map (fun q => ((q : ℚ) : ℝ))

/-- Strict mean order between centroids: the digest invariant is that
the centroid list is `List.Pairwise meanLt`. -/
abbrev meanLt (a b : Centroid) : Prop := a.mean < b.mean

/-- Well-formed digest states: positive compression, centroids strictly
sorted by mean, and positive centroid weights. -/
def WF (d : TDigest) : Prop :=
  0 < d.compression ∧ List.Pairwise meanLt d.cs ∧ ∀ c ∈ d.cs, 0 < c.weight

/-! ### Weight bookkeeping -/

theorem wsum_nil : wsum [] = 0 := rfl

theorem wsum_cons (c : Centroid) (cs : List Centroid) :
    wsum (c :: cs) = c.weight + wsum cs := by
  simp [wsum]

theorem wsum_nonneg (cs : List Centroid) (h : ∀ c ∈ cs, 0 < c.weight) :
    0 ≤ wsum cs := by
  induction cs with
  | nil => simp [wsum_nil]
  | cons a t ih =>
    have ha := h a (by simp)
    have ht := ih (fun c hc => h c (by simp [hc]))
    rw [wsum_cons]
    linarith

theorem updGo_wsum (δ N x w : ℚ) :
    ∀ (cs : List Centroid) (pre : ℚ),
      wsum (updGo δ N x w pre cs) = w + wsum cs := by
  intro cs
  induction cs with
  | nil => intro pre; simp [updGo, wsum_cons, wsum_nil]
  | cons a t ih =>
    intro pre
    cases t with
    | nil =>
      simp only [updGo]
      split_ifs <;> simp [absorbC, wsum_cons, wsum_nil] <;> ring
    | cons b rest =>
      simp only [updGo]
      split_ifs <;>
        simp [absorbC, wsum_cons, ih] <;> ring

theorem compressLoop_wsum (bound : ℚ) :
    ∀ (l : List Centroid) (cur : Centroid),
      wsum (compressLoop bound cur l) = cur.weight + wsum l := by
  intro l
  induction l with
  | nil => intro cur; simp [compressLoop, wsum_cons, wsum_nil]
  | cons c rest ih =>
    intro cur
    simp only [compressLoop]
    split_ifs with h
    · rw [ih, wsum_cons]
      simp [mergeC]
      ring
    · rw [wsum_cons, ih, wsum_cons]

theorem compressCs_wsum (δ : ℚ) (cs : List Centroid) :
    wsum (compressCs δ cs) = wsum cs := by
  cases cs with
  | nil => rfl
  | cons c rest =>
    simp only [compressCs]
    rw [compressLoop_wsum, wsum_cons]

theorem update_totalWeight (d : TDigest) (x w : ℚ) :
    (d.update x w).totalWeight = d.totalWeight + w := by
  simp only [TDigest.update, TDigest.totalWeight]
  split_ifs <;> simp [compressCs_wsum, updGo_wsum] <;> ring

theorem reach_totalWeight (δ : ℚ) (ps : List (ℚ × ℚ)) :
    (reach δ ps).totalWeight = (ps.map Prod.snd).sum := by
  suffices h : ∀ (d : TDigest),
      (ps.foldl (fun d p => d.update p.1 p.2) d).totalWeight =
        d.totalWeight + (ps.map Prod.snd).sum by
    have h2 := h (TDigest.new δ)
    simpa [reach, TDigest.new, TDigest.totalWeight, wsum_nil] using h2
  induction ps with
  | nil => intro d; simp
  | cons p t ih =>
    intro d
    simp only [List.foldl_cons, List.map_cons, List.sum_cons]
    rw [ih, update_totalWeight]
    ring

/-! ### Fail-fast input checking -/

theorem newChecked_invalid (c : FVal) (h : validNewArg c = false) :
    TDigest.newChecked c = Except.error TDError.invalidArgument := by
  cases c <;> simp_all [validNewArg, TDigest.newChecked]

theorem updateChecked_invalid (d : TDigest) (x w : FVal)
    (h : validUpdArgs x w = false) :
    d.updateChecked x w = Except.error TDError.invalidArgument := by
  cases x <;> cases w <;> simp_all [validUpdArgs, TDigest.updateChecked]

theorem quantileChecked_invalid (d : TDigest) (q : FVal)
    (h : validQuantArg q = false) :
    d.quantileChecked q = Except.error TDError.invalidArgument := by
  cases q <;> simp_all [validQuantArg, TDigest.quantileChecked]

theorem applyCall_invalid (d : TDigest) (c : UpdCall)
    (h : validUpdArgs c.x c.w = false) : applyCall d c = d := by
  simp [applyCall, updateChecked_invalid d c.x c.w h]

theorem runCalls_skip_invalid (d : TDigest) (pre post : List UpdCall)
    (c : UpdCall) (h : validUpdArgs c.x c.w = false) :
    runCalls d (pre ++ c :: post) = runCalls d (pre ++ post) := by
  simp only [runCalls, List.foldl_append, List.foldl_cons]
  rw [applyCall_invalid _ c h]

/-! ### Ordering invariant: arithmetic of absorption and merging -/

theorem absorb_weight (c : Centroid) (x w : ℚ) :
    (absorbC c x w).weight = c.weight + w := rfl

theorem absorb_mean_eq (c : Centroid) (w : ℚ) :
    (absorbC c c.mean w).mean = c.mean := by
  simp [absorbC]

theorem absorb_mean_gt (c : Centroid) (x w : ℚ) (hc : 0 < c.weight)
    (hw : 0 < w) (hx : c.mean < x) :
    c.mean < (absorbC c x w).mean ∧ (absorbC c x w).mean < x := by
  have hden : 0 < c.weight + w := by linarith
  constructor
  · have : 0 < (x - c.mean) * w / (c.weight + w) :=
      div_pos (mul_pos (by linarith) hw) hden
    simp only [absorbC]
    linarith
  · have key : (x - c.mean) * w / (c.weight + w) < x - c.mean := by
      rw [div_lt_iff₀ hden]
      nlinarith
    simp only [absorbC]
    linarith

theorem absorb_mean_lt (c : Centroid) (x w : ℚ) (hc : 0 < c.weight)
    (hw : 0 < w) (hx : x < c.mean) :
    x < (absorbC c x w).mean ∧ (absorbC c x w).mean < c.mean := by
  have hden : 0 < c.weight + w := by linarith
  constructor
  · have key : x - c.mean < (x - c.mean) * w / (c.weight + w) := by
      rw [lt_div_iff₀ hden]
      nlinarith
    simp only [absorbC]
    linarith
  · have : (x - c.mean) * w / (c.weight + w) < 0 :=
      div_neg_of_neg_of_pos (mul_neg_of_neg_of_pos (by linarith) hw) hden
    simp only [absorbC]
    linarith

/-- The mean after absorption stays above any bound below both the old
mean and the absorbed value. -/
theorem absorb_mean_lb (c : Centroid) (x w m : ℚ) (hc : 0 < c.weight)
    (hw : 0 < w) (hm : m < x) (hmc : m < c.mean) :
    m < (absorbC c x w).mean := by
  rcases lt_trichotomy x c.mean with h | h | h
  · exact lt_trans hm (absorb_mean_lt c x w hc hw h).1
  · rw [h, absorb_mean_eq]
    exact hmc
  · exact lt_trans hmc (absorb_mean_gt c x w hc hw h).1

theorem mergeC_weight (a b : Centroid) :
    (mergeC a b).weight = a.weight + b.weight := rfl

theorem mergeC_mean_between (a b : Centroid) (ha : 0 < a.weight)
    (hb : 0 < b.weight) (hm : a.mean < b.mean) :
    a.mean < (mergeC a b).mean ∧ (mergeC a b).mean < b.mean := by
  have hden : 0 < a.weight + b.weight := by linarith
  constructor
  · simp only [mergeC]
    rw [lt_div_iff₀ hden]
    nlinarith
  · simp only [mergeC]
    rw [div_lt_iff₀ hden]
    nlinarith

theorem mergeC_mean_lb (a b : Centroid) (m : ℚ) (ha : 0 < a.weight)
    (hb : 0 < b.weight) (h1 : m < a.mean) (h2 : m < b.mean) :
    m < (mergeC a b).mean := by
  have hden : 0 < a.weight + b.weight := by linarith
  simp only [mergeC]
  rw [lt_div_iff₀ hden]
  nlinarith


/-! ### Ordering invariant: preservation by the insertion walk -/

theorem updGo_mean_lb (δ N x w m : ℚ) :
    ∀ (cs : List Centroid) (pre : ℚ), m < x →
      (∀ c ∈ cs, m < c.mean) → (∀ c ∈ cs, 0 < c.weight) → 0 < w →
      ∀ c2 ∈ updGo δ N x w pre cs, m < c2.mean := by
  intro cs
  induction cs with
  | nil =>
    intro pre hmx _ _ _ c2 hc2
    simp only [updGo, List.mem_singleton] at hc2
    subst hc2
    exact hmx
  | cons a t ih =>
    intro pre hmx hmem hpos hw
    have hma : m < a.mean := hmem a (by simp)
    have hwa : 0 < a.weight := hpos a (by simp)
    have habs : m < (absorbC a x w).mean :=
      absorb_mean_lb a x w m hwa hw hmx hma
    cases t with
    | nil =>
      simp only [updGo]
      split_ifs
      · exact List.forall_mem_singleton.mpr habs
      · exact List.forall_mem_singleton.mpr habs
      · exact List.forall_mem_cons.mpr
          ⟨hmx, List.forall_mem_singleton.mpr hma⟩
      · exact List.forall_mem_cons.mpr
          ⟨hma, List.forall_mem_singleton.mpr hmx⟩
    | cons b rest =>
      have hmb : m < b.mean := hmem b (by simp)
      have hwb : 0 < b.weight := hpos b (by simp)
      have hmemr : ∀ c ∈ b :: rest, m < c.mean :=
        fun c hc => hmem c (List.mem_cons_of_mem a hc)
      have hposr : ∀ c ∈ b :: rest, 0 < c.weight :=
        fun c hc => hpos c (List.mem_cons_of_mem a hc)
      have habsb : m < (absorbC b x w).mean :=
        absorb_mean_lb b x w m hwb hw hmx hmb
      have hmemrr : ∀ c ∈ rest, m < c.mean :=
        fun c hc => hmemr c (List.mem_cons_of_mem b hc)
      simp only [updGo]
      split_ifs
      · exact List.forall_mem_cons.mpr ⟨habs, hmemr⟩
      · exact List.forall_mem_cons.mpr ⟨habs, hmemr⟩
      · exact List.forall_mem_cons.mpr ⟨hmx, hmem⟩
      · exact List.forall_mem_cons.mpr ⟨habs, hmemr⟩
      · exact List.forall_mem_cons.mpr
          ⟨hma, List.forall_mem_cons.mpr ⟨habsb, hmemrr⟩⟩
      · exact List.forall_mem_cons.mpr
          ⟨hma, List.forall_mem_cons.mpr ⟨hmx, hmemr⟩⟩
      · exact List.forall_mem_cons.mpr
          ⟨hma, List.forall_mem_cons.mpr ⟨habsb, hmemrr⟩⟩
      · exact List.forall_mem_cons.mpr ⟨habs, hmemr⟩
      · exact List.forall_mem_cons.mpr
          ⟨hma, List.forall_mem_cons.mpr ⟨hmx, hmemr⟩⟩
      · exact List.forall_mem_cons.mpr
          ⟨hma, ih (pre + a.weight) hmx hmemr hposr hw⟩

theorem updGo_pos (δ N x w : ℚ) :
    ∀ (cs : List Centroid) (pre : ℚ),
      (∀ c ∈ cs, 0 < c.weight) → 0 < w →
      ∀ c2 ∈ updGo δ N x w pre cs, 0 < c2.weight := by
  intro cs
  induction cs with
  | nil =>
    intro pre _ hw c2 hc2
    simp only [updGo, List.mem_singleton] at hc2
    subst hc2
    exact hw
  | cons a t ih =>
    intro pre hpos hw
    have hwa : 0 < a.weight := hpos a (by simp)
    have habs : 0 < (absorbC a x w).weight := by
      rw [absorb_weight]; linarith
    cases t with
    | nil =>
      simp only [updGo]
      split_ifs
      · exact List.forall_mem_singleton.mpr habs
      · exact List.forall_mem_singleton.mpr habs
      · exact List.forall_mem_cons.mpr
          ⟨hw, List.forall_mem_singleton.mpr hwa⟩
      · exact List.forall_mem_cons.mpr
          ⟨hwa, List.forall_mem_singleton.mpr hw⟩
    | cons b rest =>
      have hwb : 0 < b.weight := hpos b (by simp)
      have habsb : 0 < (absorbC b x w).weight := by
        rw [absorb_weight]; linarith
      have hposr : ∀ c ∈ b :: rest, 0 < c.weight :=
        fun c hc => hpos c (List.mem_cons_of_mem a hc)
      have hposrr : ∀ c ∈ rest, 0 < c.weight :=
        fun c hc => hposr c (List.mem_cons_of_mem b hc)
      simp only [updGo]
      split_ifs
      · exact List.forall_mem_cons.mpr ⟨habs, hposr⟩
      · exact List.forall_mem_cons.mpr ⟨habs, hposr⟩
      · exact List.forall_mem_cons.mpr ⟨hw, hpos⟩
      · exact List.forall_mem_cons.mpr ⟨habs, hposr⟩
      · exact List.forall_mem_cons.mpr
          ⟨hwa, List.forall_mem_cons.mpr ⟨habsb, hposrr⟩⟩
      · exact List.forall_mem_cons.mpr
          ⟨hwa, List.forall_mem_cons.mpr ⟨hw, hposr⟩⟩
      · exact List.forall_mem_cons.mpr
          ⟨hwa, List.forall_mem_cons.mpr ⟨habsb, hposrr⟩⟩
      · exact List.forall_mem_cons.mpr ⟨habs, hposr⟩
      · exact List.forall_mem_cons.mpr
          ⟨hwa, List.forall_mem_cons.mpr ⟨hw, hposr⟩⟩
      · exact List.forall_mem_cons.mpr
          ⟨hwa, ih (pre + a.weight) hposr hw⟩

theorem updGo_sorted (δ N x w : ℚ) :
    ∀ (cs : List Centroid) (pre : ℚ),
      List.Pairwise meanLt cs → (∀ c ∈ cs, 0 < c.weight) → 0 < w →
      List.Pairwise meanLt (updGo δ N x w pre cs) := by
  intro cs
  induction cs with
  | nil =>
    intro pre _ _ _
    simp [updGo]
  | cons a t ih =>
    intro pre hp hpos hw
    have hwa : 0 < a.weight := hpos a (by simp)
    cases t with
    | nil =>
      simp only [updGo]
      split_ifs with hxa hfa hlt
      · exact List.pairwise_singleton _ _
      · exact List.pairwise_singleton _ _
      · refine List.pairwise_cons.mpr ⟨?_, List.pairwise_singleton _ _⟩
        intro c hc
        rw [List.mem_singleton] at hc
        subst hc
        exact hlt
      · have hax : a.mean < x :=
          lt_of_le_of_ne (not_lt.mp hlt) (fun he => hxa he.symm)
        refine List.pairwise_cons.mpr ⟨?_, List.pairwise_singleton _ _⟩
        intro c hc
        rw [List.mem_singleton] at hc
        subst hc
        exact hax
    | cons b rest =>
      have hwb : 0 < b.weight := hpos b (by simp)
      have hposr : ∀ c ∈ b :: rest, 0 < c.weight :=
        fun c hc => hpos c (List.mem_cons_of_mem a hc)
      have hp2 := hp
      rw [List.pairwise_cons] at hp2
      obtain ⟨haAll, hpt⟩ := hp2
      have hpt2 := hpt
      rw [List.pairwise_cons] at hpt2
      obtain ⟨hbAll, hprest⟩ := hpt2
      have hab : a.mean < b.mean := haAll b (by simp)
      simp only [updGo]
      by_cases hxa : x = a.mean
      · rw [if_pos hxa]
        refine List.pairwise_cons.mpr ⟨?_, hpt⟩
        intro c hc
        have he : (absorbC a x w).mean = a.mean := by
          rw [hxa, absorb_mean_eq]
        show (absorbC a x w).mean < c.mean
        rw [he]
        exact haAll c hc
      · rw [if_neg hxa]
        by_cases hxlt : x < a.mean
        · rw [if_pos hxlt]
          by_cases hfa : fits δ N pre a w = true
          · rw [if_pos hfa]
            refine List.pairwise_cons.mpr ⟨?_, hpt⟩
            intro c hc
            exact lt_trans (absorb_mean_lt a x w hwa hw hxlt).2 (haAll c hc)
          · rw [if_neg hfa]
            refine List.pairwise_cons.mpr ⟨?_, hp⟩
            intro c hc
            rcases List.mem_cons.mp hc with rfl | hc2
            · exact hxlt
            · exact lt_trans hxlt (haAll c hc2)
        · rw [if_neg hxlt]
          have hax : a.mean < x :=
            lt_of_le_of_ne (not_lt.mp hxlt) (fun he => hxa he.symm)
          by_cases hxb : x < b.mean
          · rw [if_pos hxb]
            have hxall : ∀ c ∈ b :: rest, x < c.mean := by
              intro c hc
              rcases List.mem_cons.mp hc with rfl | hc2
              · exact hxb
              · exact lt_trans hxb (hbAll c hc2)
            have habsA : List.Pairwise meanLt (absorbC a x w :: b :: rest) := by
              refine List.pairwise_cons.mpr ⟨?_, hpt⟩
              intro c hc
              exact lt_trans (absorb_mean_gt a x w hwa hw hax).2 (hxall c hc)
            have habsB : List.Pairwise meanLt (a :: absorbC b x w :: rest) := by
              refine List.pairwise_cons.mpr
                ⟨?_, List.pairwise_cons.mpr ⟨?_, hprest⟩⟩
              · intro c hc
                rcases List.mem_cons.mp hc with rfl | hc2
                · exact lt_trans hax (absorb_mean_lt b x w hwb hw hxb).1
                · exact haAll c (List.mem_cons_of_mem b hc2)
              · intro c hc
                exact lt_trans (absorb_mean_lt b x w hwb hw hxb).2 (hbAll c hc)
            have hmid : List.Pairwise meanLt
                (a :: (⟨x, w⟩ : Centroid) :: b :: rest) := by
              refine List.pairwise_cons.mpr
                ⟨?_, List.pairwise_cons.mpr ⟨?_, hpt⟩⟩
              · intro c hc
                rcases List.mem_cons.mp hc with rfl | hc2
                · exact hax
                · exact haAll c hc2
              · intro c hc
                exact hxall c hc
            by_cases hnear : x - a.mean ≤ b.mean - x
            · rw [if_pos hnear]
              by_cases hfa : fits δ N pre a w = true
              · rw [if_pos hfa]
                exact habsA
              · rw [if_neg hfa]
                by_cases hfb : fits δ N (pre + a.weight) b w = true
                · rw [if_pos hfb]
                  exact habsB
                · rw [if_neg hfb]
                  exact hmid
            · rw [if_neg hnear]
              by_cases hfb : fits δ N (pre + a.weight) b w = true
              · rw [if_pos hfb]
                exact habsB
              · rw [if_neg hfb]
                by_cases hfa : fits δ N pre a w = true
                · rw [if_pos hfa]
                  exact habsA
                · rw [if_neg hfa]
                  exact hmid
          · rw [if_neg hxb]
            refine List.pairwise_cons.mpr
              ⟨?_, ih (pre + a.weight) hpt hposr hw⟩
            intro c2 hc2
            exact updGo_mean_lb δ N x w a.mean (b :: rest) (pre + a.weight)
              hax haAll hposr hw c2 hc2

/-! ### Ordering invariant: preservation by re-compression -/

theorem compressLoop_pos (bound : ℚ) :
    ∀ (l : List Centroid) (cur : Centroid), 0 < cur.weight →
      (∀ c ∈ l, 0 < c.weight) →
      ∀ c2 ∈ compressLoop bound cur l, 0 < c2.weight := by
  intro l
  induction l with
  | nil =>
    intro cur hcur _ c2 hc2
    simp only [compressLoop, List.mem_singleton] at hc2
    subst hc2
    exact hcur
  | cons c rest ih =>
    intro cur hcur hpos
    have hc : 0 < c.weight := hpos c (by simp)
    have hposr : ∀ c2 ∈ rest, 0 < c2.weight :=
      fun c2 hc2 => hpos c2 (List.mem_cons_of_mem c hc2)
    simp only [compressLoop]
    split_ifs
    · refine ih (mergeC cur c) ?_ hposr
      rw [mergeC_weight]
      linarith
    · exact List.forall_mem_cons.mpr ⟨hcur, ih c hc hposr⟩

theorem compressLoop_mean_lb (bound m : ℚ) :
    ∀ (l : List Centroid) (cur : Centroid), m < cur.mean →
      (∀ c ∈ l, m < c.mean) → 0 < cur.weight → (∀ c ∈ l, 0 < c.weight) →
      ∀ c2 ∈ compressLoop bound cur l, m < c2.mean := by
  intro l
  induction l with
  | nil =>
    intro cur hcur _ _ _ c2 hc2
    simp only [compressLoop, List.mem_singleton] at hc2
    subst hc2
    exact hcur
  | cons c rest ih =>
    intro cur hcur hmem hwcur hpos
    have hc : m < c.mean := hmem c (by simp)
    have hwc : 0 < c.weight := hpos c (by simp)
    have hmemr : ∀ c2 ∈ rest, m < c2.mean :=
      fun c2 hc2 => hmem c2 (List.mem_cons_of_mem c hc2)
    have hposr : ∀ c2 ∈ rest, 0 < c2.weight :=
      fun c2 hc2 => hpos c2 (List.mem_cons_of_mem c hc2)
    simp only [compressLoop]
    split_ifs
    · refine ih (mergeC cur c) ?_ hmemr ?_ hposr
      · exact mergeC_mean_lb cur c m hwcur hwc hcur hc
      · rw [mergeC_weight]
        linarith
    · exact List.forall_mem_cons.mpr ⟨hcur, ih c hc hmemr hwc hposr⟩

theorem compressLoop_sorted (bound : ℚ) :
    ∀ (l : List Centroid) (cur : Centroid),
      List.Pairwise meanLt (cur :: l) → (∀ c ∈ cur :: l, 0 < c.weight) →
      List.Pairwise meanLt (compressLoop bound cur l) := by
  intro l
  induction l with
  | nil =>
    intro cur _ _
    simp only [compressLoop]
    exact List.pairwise_singleton _ _
  | cons c rest ih =>
    intro cur hp hpos
    have hwcur : 0 < cur.weight := hpos cur (by simp)
    have hwc : 0 < c.weight := hpos c (by simp)
    have hp2 := hp
    rw [List.pairwise_cons] at hp2
    obtain ⟨hcurAll, hpt⟩ := hp2
    have hpt2 := hpt
    rw [List.pairwise_cons] at hpt2
    obtain ⟨hcAll, hprest⟩ := hpt2
    have hcc : cur.mean < c.mean := hcurAll c (by simp)
    have hposr : ∀ c2 ∈ c :: rest, 0 < c2.weight :=
      fun c2 hc2 => hpos c2 (List.mem_cons_of_mem cur hc2)
    have hposrr : ∀ c2 ∈ rest, 0 < c2.weight :=
      fun c2 hc2 => hposr c2 (List.mem_cons_of_mem c hc2)
    simp only [compressLoop]
    split_ifs
    · refine ih (mergeC cur c) ?_ ?_
      · refine List.pairwise_cons.mpr ⟨?_, hprest⟩
        intro c2 hc2
        exact lt_trans (mergeC_mean_between cur c hwcur hwc hcc).2
          (hcAll c2 hc2)
      · refine List.forall_mem_cons.mpr ⟨?_, hposrr⟩
        rw [mergeC_weight]
        linarith
    · refine List.pairwise_cons.mpr ⟨?_, ih c hpt hposr⟩
      intro c2 hc2
      refine compressLoop_mean_lb bound cur.mean rest c hcc ?_ hwc hposrr c2 hc2
      intro c3 hc3
      exact hcurAll c3 (List.mem_cons_of_mem c hc3)

theorem compressCs_pos (δ : ℚ) (cs : List Centroid)
    (hpos : ∀ c ∈ cs, 0 < c.weight) :
    ∀ c2 ∈ compressCs δ cs, 0 < c2.weight := by
  cases cs with
  | nil => simp [compressCs]
  | cons c rest =>
    simp only [compressCs]
    exact compressLoop_pos _ rest c (hpos c (by simp))
      (fun c2 hc2 => hpos c2 (List.mem_cons_of_mem c hc2))

theorem compressCs_sorted (δ : ℚ) (cs : List Centroid)
    (hp : List.Pairwise meanLt cs) (hpos : ∀ c ∈ cs, 0 < c.weight) :
    List.Pairwise meanLt (compressCs δ cs) := by
  cases cs with
  | nil => simp [compressCs]
  | cons c rest =>
    simp only [compressCs]
    exact compressLoop_sorted _ rest c hp hpos

/-! ### The digest invariant -/

theorem wf_new (δ : ℚ) (hδ : 0 < δ) : WF (TDigest.new δ) := by
  refine ⟨hδ, ?_, ?_⟩ <;> simp [TDigest.new]

theorem wf_update (d : TDigest) (x w : ℚ) (hd : WF d) (hw : 0 < w) :
    WF (d.update x w) := by
  obtain ⟨hδ, hp, hpos⟩ := hd
  have hs := updGo_sorted d.compression (wsum d.cs + w) x w d.cs 0 hp hpos hw
  have hq := updGo_pos d.compression (wsum d.cs + w) x w d.cs 0 hpos hw
  simp only [TDigest.update]
  split_ifs
  · exact ⟨hδ, compressCs_sorted _ _ hs hq, compressCs_pos _ _ hq⟩
  · exact ⟨hδ, hs, hq⟩

theorem wf_reach (δ : ℚ) (xs : List (ℚ × ℚ)) (hδ : 0 < δ)
    (hw : ∀ p ∈ xs, 0 < p.2) : WF (reach δ xs) := by
  suffices h : ∀ (d : TDigest), WF d →
      WF (xs.foldl (fun d p => d.update p.1 p.2) d) by
    exact h (TDigest.new δ) (wf_new δ hδ)
  clear hδ
  induction xs with
  | nil => intro d hd; exact hd
  | cons p t ih =>
    intro d hd
    simp only [List.foldl_cons]
    exact ih (fun q hq => hw q (List.mem_cons_of_mem p hq))
      (d.update p.1 p.2) (wf_update d p.1 p.2 hd (hw p (by simp)))

/-! ### Centroid-count bound -/

theorem updGo_length (δ N x w : ℚ) :
    ∀ (cs : List Centroid) (pre : ℚ),
      (updGo δ N x w pre cs).length ≤ cs.length + 1 := by
  intro cs
  induction cs with
  | nil => intro pre; simp [updGo]
  | cons a t ih =>
    intro pre
    cases t with
    | nil =>
      simp only [updGo]
      split_ifs <;> simp
    | cons b rest =>
      simp only [updGo]
      split_ifs <;> simp_all [Nat.succ_le_succ]

theorem compressLoop_head_weight (bound : ℚ) :
    ∀ (l : List Centroid) (cur : Centroid), (∀ c ∈ l, 0 ≤ c.weight) →
      ∃ h t, compressLoop bound cur l = h :: t ∧ cur.weight ≤ h.weight := by
  intro l
  induction l with
  | nil =>
    intro cur _
    exact ⟨cur, [], rfl, le_refl _⟩
  | cons c rest ih =>
    intro cur hpos
    have hc : 0 ≤ c.weight := hpos c (by simp)
    have hposr : ∀ c2 ∈ rest, 0 ≤ c2.weight :=
      fun c2 hc2 => hpos c2 (List.mem_cons_of_mem c hc2)
    simp only [compressLoop]
    split_ifs with hif
    · obtain ⟨h, t, heq, hle⟩ := ih (mergeC cur c) hposr
      refine ⟨h, t, heq, ?_⟩
      rw [mergeC_weight] at hle
      linarith
    · exact ⟨cur, compressLoop bound c rest, rfl, le_refl _⟩

theorem compressLoop_chain (bound : ℚ) :
    ∀ (l : List Centroid) (cur : Centroid), (∀ c ∈ l, 0 ≤ c.weight) →
      List.Chain' (fun a b : Centroid => bound < a.weight + b.weight)
        (compressLoop bound cur l) := by
  intro l
  induction l with
  | nil =>
    intro cur _
    simp [compressLoop]
  | cons c rest ih =>
    intro cur hpos
    have hc : 0 ≤ c.weight := hpos c (by simp)
    have hposr : ∀ c2 ∈ rest, 0 ≤ c2.weight :=
      fun c2 hc2 => hpos c2 (List.mem_cons_of_mem c hc2)
    simp only [compressLoop]
    split_ifs with hif
    · exact ih (mergeC cur c) hposr
    · obtain ⟨h, t, heq, hle⟩ := compressLoop_head_weight bound rest c hposr
      rw [heq]
      rw [List.chain'_cons]
      refine ⟨by linarith [not_le.mp hif], ?_⟩
      rw [← heq]
      exact ih c hposr

theorem chain_pair_sum (bound : ℚ) (hB : 0 ≤ bound) :
    ∀ l : List Centroid,
      List.Chain' (fun a b : Centroid => bound < a.weight + b.weight) l →
      (∀ c ∈ l, 0 ≤ c.weight) →
      bound * ((l.length / 2 : ℕ) : ℚ) ≤ wsum l
  | [] => by
    intro _ _
    simp [wsum_nil]
  | [a] => by
    intro _ hpos
    have := hpos a (by simp)
    simp only [List.length_singleton]
    norm_num
    rw [wsum_cons, wsum_nil]
    linarith
  | a :: b :: rest => by
    intro hch hpos
    have hab : bound < a.weight + b.weight := by
      rw [List.chain'_cons] at hch
      exact hch.1
    have hcht : List.Chain'
        (fun a b : Centroid => bound < a.weight + b.weight) rest :=
      ((List.chain'_cons.mp hch).2).tail
    have hposr : ∀ c ∈ rest, 0 ≤ c.weight :=
      fun c hc => hpos c (List.mem_cons_of_mem a (List.mem_cons_of_mem b hc))
    have ihr := chain_pair_sum bound hB rest hcht hposr
    have hlen : (a :: b :: rest).length / 2 = rest.length / 2 + 1 := by
      simp only [List.length_cons]
      omega
    rw [hlen, wsum_cons, wsum_cons]
    push_cast
    nlinarith [ihr]

theorem compressCs_length (δ : ℚ) (hδ : 0 < δ) (cs : List Centroid)
    (hpos : ∀ c ∈ cs, 0 < c.weight) (hne : cs ≠ []) :
    (compressCs δ cs).length ≤ 2 * Nat.ceil (1 / δ) + 1 := by
  cases cs with
  | nil => exact absurd rfl hne
  | cons c rest =>
    have hN : 0 < wsum (c :: rest) := by
      rw [wsum_cons]
      have h1 := hpos c (by simp)
      have h2 := wsum_nonneg rest
        (fun c2 hc2 => hpos c2 (List.mem_cons_of_mem c hc2))
      linarith
    set N := wsum (c :: rest) with hNdef
    set out := compressLoop (δ * N) c rest with houtdef
    have hB : 0 ≤ δ * N := le_of_lt (mul_pos hδ hN)
    have hposr : ∀ c2 ∈ rest, 0 ≤ c2.weight :=
      fun c2 hc2 => le_of_lt (hpos c2 (List.mem_cons_of_mem c hc2))
    have hch := compressLoop_chain (δ * N) rest c hposr
    have hpos2 : ∀ c2 ∈ out, 0 ≤ c2.weight := by
      intro c2 hc2
      exact le_of_lt (compressLoop_pos (δ * N) rest c (hpos c (by simp))
        (fun c3 hc3 => hpos c3 (List.mem_cons_of_mem c hc3)) c2 hc2)
    have hsum : wsum out = N := by
      rw [houtdef, compressLoop_wsum, ← wsum_cons]
    have hkey := chain_pair_sum (δ * N) hB out hch hpos2
    rw [hsum] at hkey
    have hk : ((out.length / 2 : ℕ) : ℚ) ≤ 1 / δ := by
      rw [le_div_iff₀ hδ]
      nlinarith
    have hk2 : out.length / 2 ≤ Nat.ceil (1 / δ) := by
      have hceil := Nat.le_ceil ((1 : ℚ) / δ)
      have : ((out.length / 2 : ℕ) : ℚ) ≤ ((Nat.ceil ((1 : ℚ) / δ) : ℕ) : ℚ) :=
        le_trans hk hceil
      exact_mod_cast this
    have : (compressCs δ (c :: rest)).length = out.length := by
      simp only [compressCs, houtdef, hNdef]
    omega

theorem update_length (d : TDigest) (x w : ℚ)
    (hδ : 0 < d.compression) (hpos : ∀ c ∈ d.cs, 0 < c.weight) (hw : 0 < w)
    (hlen : d.cs.length ≤ maxCentroids d.compression) :
    (d.update x w).cs.length ≤ maxCentroids d.compression := by
  have hl := updGo_length d.compression (wsum d.cs + w) x w d.cs 0
  have hq := updGo_pos d.compression (wsum d.cs + w) x w d.cs 0 hpos hw
  simp only [TDigest.update]
  split_ifs with hbig
  · have hne : updGo d.compression (wsum d.cs + w) x w 0 d.cs ≠ [] := by
      intro he
      rw [he] at hbig
      simp [maxCentroids] at hbig
    have := compressCs_length d.compression hδ
      (updGo d.compression (wsum d.cs + w) x w 0 d.cs) hq hne
    simp only [maxCentroids] at *
    omega
  · exact not_lt.mp hbig

theorem reach_length (δ : ℚ) (xs : List (ℚ × ℚ)) (hδ : 0 < δ)
    (hw : ∀ p ∈ xs, 0 < p.2) :
    (reach δ xs).cs.length ≤ maxCentroids δ := by
  suffices h : ∀ (d : TDigest), WF d → d.compression = δ →
      d.cs.length ≤ maxCentroids δ →
      (xs.foldl (fun d p => d.update p.1 p.2) d).cs.length ≤ maxCentroids δ by
    refine h (TDigest.new δ) (wf_new δ hδ) rfl ?_
    simp [TDigest.new, maxCentroids]
  induction xs with
  | nil => intro d _ _ hlen; exact hlen
  | cons p t ih =>
    intro d hd hc hlen
    simp only [List.foldl_cons]
    have hwp : 0 < p.2 := hw p (by simp)
    refine ih (fun q hq => hw q (List.mem_cons_of_mem p hq))
      (d.update p.1 p.2) (wf_update d p.1 p.2 hd hwp) ?_ ?_
    · show (d.update p.1 p.2).compression = δ
      simp only [TDigest.update]
      split_ifs <;> exact hc
    · have := update_length d p.1 p.2 (hc ▸ hd.1) hd.2.2 hwp (hc ▸ hlen)
      rw [hc] at this
      exact this

/-! ### Properties of the interpolation nodes -/

theorem cdfPointsAux_fst (N : ℚ) :
    ∀ (cs : List Centroid) (pre : ℚ),
      (cdfPointsAux N pre cs).map Prod.fst = cs.map Centroid.mean := by
  intro cs
  induction cs with
  | nil => intro pre; rfl
  | cons c rest ih =>
    intro pre
    simp only [cdfPointsAux, List.map_cons]
    rw [ih]

theorem cdfPointsAux_snd_bounds (N : ℚ) (hN : 0 < N) :
    ∀ (cs : List Centroid) (pre : ℚ), 0 ≤ pre →
      (∀ c ∈ cs, 0 < c.weight) →
      ∀ p ∈ cdfPointsAux N pre cs,
        pre / N < p.2 ∧ p.2 ≤ (pre + wsum cs) / N := by
  intro cs
  induction cs with
  | nil => intro pre _ _ p hp; simp [cdfPointsAux] at hp
  | cons c rest ih =>
    intro pre hpre hpos p hp
    have hc : 0 < c.weight := hpos c (by simp)
    have hwr : 0 ≤ wsum rest := wsum_nonneg rest
      (fun c2 hc2 => hpos c2 (List.mem_cons_of_mem c hc2))
    simp only [cdfPointsAux, List.mem_cons] at hp
    rcases hp with rfl | hp
    · constructor
      · rw [div_lt_div_iff₀ hN hN]
        nlinarith
      · rw [div_le_div_iff₀ hN hN, wsum_cons]
        nlinarith
    · have hb := ih (pre + c.weight) (by linarith)
        (fun c2 hc2 => hpos c2 (List.mem_cons_of_mem c hc2)) p hp
      constructor
      · refine lt_trans ?_ hb.1
        rw [div_lt_div_iff₀ hN hN]
        nlinarith
      · have := hb.2
        rw [wsum_cons]
        have he : pre + c.weight + wsum rest = pre + (c.weight + wsum rest) := by
          ring
        rw [← he]
        exact this

theorem cdfPointsAux_snd_sorted (N : ℚ) (hN : 0 < N) :
    ∀ (cs : List Centroid) (pre : ℚ), 0 ≤ pre →
      (∀ c ∈ cs, 0 < c.weight) →
      List.Pairwise (fun p q : ℚ × ℚ => p.2 < q.2) (cdfPointsAux N pre cs) := by
  intro cs
  induction cs with
  | nil => intro pre _ _; simp [cdfPointsAux]
  | cons c rest ih =>
    intro pre hpre hpos
    have hc : 0 < c.weight := hpos c (by simp)
    have hposr : ∀ c2 ∈ rest, 0 < c2.weight :=
      fun c2 hc2 => hpos c2 (List.mem_cons_of_mem c hc2)
    simp only [cdfPointsAux]
    refine List.pairwise_cons.mpr ⟨?_, ih (pre + c.weight) (by linarith) hposr⟩
    intro p hp
    exact (cdfPointsAux_snd_bounds N hN rest (pre + c.weight)
      (by linarith) hposr p hp).1

theorem cdfPointsAux_getLast (N : ℚ) :
    ∀ (cs : List Centroid) (pre : ℚ) (cl : Centroid), cs.getLast? = some cl →
      (cdfPointsAux N pre cs).getLast? = some (cl.mean, (pre + wsum cs) / N)
  | [], _, _, h => by simp at h
  | [c], pre, cl, h => by
    simp only [List.getLast?_singleton, Option.some_inj] at h
    subst h
    simp [cdfPointsAux, wsum_cons, wsum_nil]
  | c :: r :: rest, pre, cl, h => by
    rw [List.getLast?_cons_cons] at h
    have hm := cdfPointsAux_getLast N (r :: rest) (pre + c.weight) cl h
    have hshape : cdfPointsAux N pre (c :: r :: rest) =
        (c.mean, (pre + c.weight) / N) ::
          cdfPointsAux N (pre + c.weight) (r :: rest) := rfl
    obtain ⟨p0, l0, he⟩ : ∃ p0 l0,
        cdfPointsAux N (pre + c.weight) (r :: rest) = p0 :: l0 :=
      ⟨_, _, rfl⟩
    rw [hshape, he, List.getLast?_cons_cons, ← he, hm]
    have hval : pre + c.weight + wsum (r :: rest) =
        pre + wsum (c :: r :: rest) := by
      rw [wsum_cons c (r :: rest)]
      ring
    rw [hval]

/-! ### Interpolation: range and monotonicity -/

theorem interp_nonneg :
    ∀ (pts : List (ℚ × ℚ)) (x : ℚ),
      List.Pairwise (fun p q : ℚ × ℚ => p.1 < q.1) pts →
      List.Pairwise (fun p q : ℚ × ℚ => p.2 < q.2) pts →
      (∀ p ∈ pts, 0 ≤ p.2) →
      0 ≤ interpolate pts x
  | [], _, _, _, _ => le_refl 0
  | [p], x, _, _, hlo => by
    simp only [interpolate]
    split_ifs
    · exact le_refl 0
    · exact hlo p (by simp)
  | p :: q :: rest, x, hfst, hsnd, hlo => by
    have hpq : p.1 < q.1 := (List.pairwise_cons.mp hfst).1 q (by simp)
    have hpq2 : p.2 < q.2 := (List.pairwise_cons.mp hsnd).1 q (by simp)
    have hp0 : 0 ≤ p.2 := hlo p (by simp)
    simp only [interpolate]
    split_ifs with h1 h2
    · exact le_refl 0
    · have ht : 0 ≤ (x - p.1) / (q.1 - p.1) :=
        div_nonneg (by linarith [not_lt.mp h1]) (by linarith)
      nlinarith
    · exact interp_nonneg (q :: rest) x (List.pairwise_cons.mp hfst).2
        (List.pairwise_cons.mp hsnd).2
        (fun r hr => hlo r (List.mem_cons_of_mem p hr))

theorem interp_le_one :
    ∀ (pts : List (ℚ × ℚ)) (x : ℚ),
      List.Pairwise (fun p q : ℚ × ℚ => p.1 < q.1) pts →
      List.Pairwise (fun p q : ℚ × ℚ => p.2 < q.2) pts →
      (∀ p ∈ pts, p.2 ≤ 1) →
      interpolate pts x ≤ 1
  | [], _, _, _, _ => by norm_num [interpolate]
  | [p], x, _, _, hhi => by
    simp only [interpolate]
    split_ifs
    · norm_num
    · exact hhi p (by simp)
  | p :: q :: rest, x, hfst, hsnd, hhi => by
    have hpq : p.1 < q.1 := (List.pairwise_cons.mp hfst).1 q (by simp)
    have hpq2 : p.2 < q.2 := (List.pairwise_cons.mp hsnd).1 q (by simp)
    have hq1 : q.2 ≤ 1 := hhi q (by simp)
    simp only [interpolate]
    split_ifs with h1 h2
    · norm_num
    · have ht1 : (x - p.1) / (q.1 - p.1) < 1 := by
        rw [div_lt_one (by linarith)]
        linarith
      have ht0 : 0 ≤ (x - p.1) / (q.1 - p.1) :=
        div_nonneg (by linarith [not_lt.mp h1]) (by linarith)
      nlinarith
    · exact interp_le_one (q :: rest) x (List.pairwise_cons.mp hfst).2
        (List.pairwise_cons.mp hsnd).2
        (fun r hr => hhi r (List.mem_cons_of_mem p hr))

theorem interp_ge_head :
    ∀ (p : ℚ × ℚ) (rest : List (ℚ × ℚ)) (x : ℚ),
      List.Pairwise (fun p q : ℚ × ℚ => p.1 < q.1) (p :: rest) →
      List.Pairwise (fun p q : ℚ × ℚ => p.2 < q.2) (p :: rest) →
      p.1 ≤ x →
      p.2 ≤ interpolate (p :: rest) x
  | p, [], x, _, _, hx => by
    simp only [interpolate]
    rw [if_neg (not_lt.mpr hx)]
  | p, q :: rest, x, hfst, hsnd, hx => by
    have hpq : p.1 < q.1 := (List.pairwise_cons.mp hfst).1 q (by simp)
    have hpq2 : p.2 < q.2 := (List.pairwise_cons.mp hsnd).1 q (by simp)
    simp only [interpolate]
    rw [if_neg (not_lt.mpr hx)]
    split_ifs with h2
    · have ht : 0 ≤ (x - p.1) / (q.1 - p.1) :=
        div_nonneg (by linarith) (by linarith)
      nlinarith
    · refine le_trans (le_of_lt hpq2) ?_
      exact interp_ge_head q rest x (List.pairwise_cons.mp hfst).2
        (List.pairwise_cons.mp hsnd).2 (not_lt.mp h2)

theorem interp_mono :
    ∀ (pts : List (ℚ × ℚ)) (x1 x2 : ℚ),
      List.Pairwise (fun p q : ℚ × ℚ => p.1 < q.1) pts →
      List.Pairwise (fun p q : ℚ × ℚ => p.2 < q.2) pts →
      (∀ p ∈ pts, 0 ≤ p.2) →
      x1 ≤ x2 →
      interpolate pts x1 ≤ interpolate pts x2
  | [], _, _, _, _, _, _ => le_refl 0
  | [p], x1, x2, _, _, hlo, hx => by
    simp only [interpolate]
    split_ifs with h1 h2 h2
    · exact le_refl 0
    · exact hlo p (by simp)
    · exact absurd (lt_of_le_of_lt hx h2) h1
    · exact le_refl _
  | p :: q :: rest, x1, x2, hfst, hsnd, hlo, hx => by
    have hpq : p.1 < q.1 := (List.pairwise_cons.mp hfst).1 q (by simp)
    have hpq2 : p.2 < q.2 := (List.pairwise_cons.mp hsnd).1 q (by simp)
    have hfstT := (List.pairwise_cons.mp hfst).2
    have hsndT := (List.pairwise_cons.mp hsnd).2
    have hloT : ∀ r ∈ q :: rest, 0 ≤ r.2 :=
      fun r hr => hlo r (List.mem_cons_of_mem p hr)
    by_cases h1 : x1 < p.1
    · have h0 := interp_nonneg (p :: q :: rest) x2 hfst hsnd hlo
      have hL : interpolate (p :: q :: rest) x1 = 0 := by
        simp only [interpolate]
        rw [if_pos h1]
      rw [hL]
      exact h0
    · have h1b : p.1 ≤ x1 := not_lt.mp h1
      have h4 : ¬x2 < p.1 := not_lt.mpr (by linarith)
      by_cases h2 : x1 < q.1
      · by_cases h3 : x2 < q.1
        · have hL : interpolate (p :: q :: rest) x1 =
              p.2 + (x1 - p.1) / (q.1 - p.1) * (q.2 - p.2) := by
            simp only [interpolate]
            rw [if_neg h1, if_pos h2]
          have hR : interpolate (p :: q :: rest) x2 =
              p.2 + (x2 - p.1) / (q.1 - p.1) * (q.2 - p.2) := by
            simp only [interpolate]
            rw [if_neg h4, if_pos h3]
          rw [hL, hR]
          have key : p.2 + (x2 - p.1) / (q.1 - p.1) * (q.2 - p.2) -
              (p.2 + (x1 - p.1) / (q.1 - p.1) * (q.2 - p.2)) =
              (x2 - x1) / (q.1 - p.1) * (q.2 - p.2) := by
            ring
          have hpos : 0 ≤ (x2 - x1) / (q.1 - p.1) * (q.2 - p.2) :=
            mul_nonneg (div_nonneg (by linarith) (by linarith)) (by linarith)
          linarith
        · have hub : interpolate (p :: q :: rest) x1 ≤ q.2 := by
            have hL : interpolate (p :: q :: rest) x1 =
                p.2 + (x1 - p.1) / (q.1 - p.1) * (q.2 - p.2) := by
              simp only [interpolate]
              rw [if_neg h1, if_pos h2]
            rw [hL]
            have ht1 : (x1 - p.1) / (q.1 - p.1) < 1 := by
              rw [div_lt_one (by linarith)]
              linarith
            nlinarith
          have hR : interpolate (p :: q :: rest) x2 =
              interpolate (q :: rest) x2 := by
            simp only [interpolate]
            rw [if_neg h4, if_neg h3]
          have hlb : q.2 ≤ interpolate (q :: rest) x2 :=
            interp_ge_head q rest x2 hfstT hsndT (not_lt.mp h3)
          rw [hR]
          linarith
      · have h3 : ¬x2 < q.1 := not_lt.mpr (by linarith [not_lt.mp h2])
        have hL : interpolate (p :: q :: rest) x1 =
            interpolate (q :: rest) x1 := by
          simp only [interpolate]
          rw [if_neg h1, if_neg h2]
        have hR : interpolate (p :: q :: rest) x2 =
            interpolate (q :: rest) x2 := by
          simp only [interpolate]
          rw [if_neg h4, if_neg h3]
        rw [hL, hR]
        exact interp_mono (q :: rest) x1 x2 hfstT hsndT hloT hx

/-! ### Inverse interpolation: bounds -/

theorem fst_head_le_last (p : ℚ × ℚ) (rest : List (ℚ × ℚ)) (pl : ℚ × ℚ)
    (hp : List.Pairwise (fun a b : ℚ × ℚ => a.1 < b.1) (p :: rest))
    (hl : (p :: rest).getLast? = some pl) : p.1 ≤ pl.1 := by
  have hmem : pl ∈ p :: rest := by
    have h2 : pl ∈ (p :: rest).getLast? := Option.mem_def.mpr hl
    obtain ⟨hne, heq⟩ := List.mem_getLast?_eq_getLast h2
    rw [heq]
    exact List.getLast_mem hne
  rcases List.mem_cons.mp hmem with rfl | hmem2
  · exact le_refl _
  · exact le_of_lt ((List.pairwise_cons.mp hp).1 pl hmem2)

theorem quantileList_ge_head :
    ∀ (p : ℚ × ℚ) (rest : List (ℚ × ℚ)) (t : ℚ),
      List.Pairwise (fun a b : ℚ × ℚ => a.1 < b.1) (p :: rest) →
      List.Pairwise (fun a b : ℚ × ℚ => a.2 < b.2) (p :: rest) →
      p.1 ≤ quantileList (p :: rest) t
  | _, [], _, _, _ => le_refl _
  | p, q :: rest, t, hfst, hsnd => by
    have hpq : p.1 < q.1 := (List.pairwise_cons.mp hfst).1 q (by simp)
    have hpq2 : p.2 < q.2 := (List.pairwise_cons.mp hsnd).1 q (by simp)
    simp only [quantileList]
    split_ifs with h1 h2
    · exact le_refl _
    · have ht : 0 ≤ (t - p.2) / (q.2 - p.2) :=
        div_nonneg (by linarith [not_le.mp h1]) (by linarith)
      nlinarith
    · exact le_trans (le_of_lt hpq)
        (quantileList_ge_head q rest t (List.pairwise_cons.mp hfst).2
          (List.pairwise_cons.mp hsnd).2)

theorem quantileList_le_last :
    ∀ (pts : List (ℚ × ℚ)) (t : ℚ) (pl : ℚ × ℚ),
      pts.getLast? = some pl →
      List.Pairwise (fun a b : ℚ × ℚ => a.1 < b.1) pts →
      List.Pairwise (fun a b : ℚ × ℚ => a.2 < b.2) pts →
      quantileList pts t ≤ pl.1
  | [], _, _, h, _, _ => by simp at h
  | [p], t, pl, h, _, _ => by
    simp only [List.getLast?_singleton, Option.some_inj] at h
    subst h
    exact le_refl _
  | p :: q :: rest, t, pl, h, hfst, hsnd => by
    rw [List.getLast?_cons_cons] at h
    have hfstT := (List.pairwise_cons.mp hfst).2
    have hsndT := (List.pairwise_cons.mp hsnd).2
    have htail := quantileList_le_last (q :: rest) t pl h hfstT hsndT
    have hql : q.1 ≤ pl.1 := fst_head_le_last q rest pl hfstT h
    have hpq : p.1 < q.1 := (List.pairwise_cons.mp hfst).1 q (by simp)
    have hpq2 : p.2 < q.2 := (List.pairwise_cons.mp hsnd).1 q (by simp)
    simp only [quantileList]
    split_ifs with h1 h2
    · exact le_trans (le_of_lt hpq) hql
    · have ht1 : (t - p.2) / (q.2 - p.2) ≤ 1 := by
        rw [div_le_one (by linarith)]
        linarith
      have hseg : p.1 + (t - p.2) / (q.2 - p.2) * (q.1 - p.1) ≤ q.1 := by
        nlinarith
      linarith
    · exact htail

/-! ### Digest-level facts about the interpolation nodes -/

theorem wsum_pos (cs : List Centroid) (hne : cs ≠ [])
    (hpos : ∀ c ∈ cs, 0 < c.weight) : 0 < wsum cs := by
  cases cs with
  | nil => exact absurd rfl hne
  | cons c rest =>
    rw [wsum_cons]
    have h1 := hpos c (by simp)
    have h2 := wsum_nonneg rest
      (fun c2 hc2 => hpos c2 (List.mem_cons_of_mem c hc2))
    linarith

theorem cdfPoints_fst_sorted (d : TDigest) (hd : WF d) :
    List.Pairwise (fun p q : ℚ × ℚ => p.1 < q.1) d.cdfPoints := by
  have hmap := cdfPointsAux_fst (wsum d.cs) d.cs 0
  have h1 : List.Pairwise (· < ·) (d.cs.map Centroid.mean) :=
    List.pairwise_map.mpr hd.2.1
  rw [← hmap] at h1
  exact List.pairwise_map.mp h1

theorem cdfPoints_snd_sorted (d : TDigest) (hd : WF d) :
    List.Pairwise (fun p q : ℚ × ℚ => p.2 < q.2) d.cdfPoints := by
  rcases heq : d.cs with _ | ⟨c, rest⟩
  · simp [TDigest.cdfPoints, heq, cdfPointsAux]
  · have hne : d.cs ≠ [] := by rw [heq]; simp
    have hN : 0 < wsum d.cs := wsum_pos d.cs hne hd.2.2
    exact cdfPointsAux_snd_sorted (wsum d.cs) hN d.cs 0 (le_refl 0) hd.2.2

theorem cdfPoints_snd_mem (d : TDigest) (hd : WF d) :
    ∀ p ∈ d.cdfPoints, 0 ≤ p.2 ∧ p.2 ≤ 1 := by
  rcases heq : d.cs with _ | ⟨c, rest⟩
  · intro p hp
    rw [TDigest.cdfPoints, heq] at hp
    simp [cdfPointsAux] at hp
  · have hne : d.cs ≠ [] := by rw [heq]; simp
    have hN : 0 < wsum d.cs := wsum_pos d.cs hne hd.2.2
    intro p hp
    have hb := cdfPointsAux_snd_bounds (wsum d.cs) hN d.cs 0 (le_refl 0)
      hd.2.2 p hp
    constructor
    · have := hb.1
      rw [zero_div] at this
      linarith
    · have := hb.2
      rw [zero_add, div_self (ne_of_gt hN)] at this
      exact this

theorem cdfPoints_getLast_one (d : TDigest) (hd : WF d) (cl : Centroid)
    (hcl : d.cs.getLast? = some cl) :
    d.cdfPoints.getLast? = some (cl.mean, 1) := by
  have hne : d.cs ≠ [] := by
    intro he
    rw [he] at hcl
    simp at hcl
  have hN : 0 < wsum d.cs := wsum_pos d.cs hne hd.2.2
  have hm := cdfPointsAux_getLast (wsum d.cs) d.cs 0 cl hcl
  rw [zero_add, div_self (ne_of_gt hN)] at hm
  exact hm

/-! ### Exact round-trip of cdf after quantile -/

theorem interp_at_head :
    ∀ (q : ℚ × ℚ) (rest : List (ℚ × ℚ)),
      List.Pairwise (fun a b : ℚ × ℚ => a.1 < b.1) (q :: rest) →
      interpolate (q :: rest) q.1 = q.2
  | q, [], _ => by
    simp [interpolate]
  | q, r :: rest, hfst => by
    have hqr : q.1 < r.1 := (List.pairwise_cons.mp hfst).1 r (by simp)
    simp only [interpolate]
    rw [if_neg (lt_irrefl q.1), if_pos hqr]
    simp

theorem interp_quantile_eq :
    ∀ (pts : List (ℚ × ℚ)) (t : ℚ) (pl : ℚ × ℚ),
      List.Pairwise (fun a b : ℚ × ℚ => a.1 < b.1) pts →
      List.Pairwise (fun a b : ℚ × ℚ => a.2 < b.2) pts →
      pts.getLast? = some pl → pl.2 = 1 →
      (∀ p0 ∈ pts.head?, p0.2 ≤ t) → t ≤ 1 →
      interpolate pts (quantileList pts t) = t
  | [], t, pl, _, _, hl, _, _, _ => by simp at hl
  | [p], t, pl, _, _, hl, hl1, hh, ht1 => by
    simp only [List.getLast?_singleton, Option.some_inj] at hl
    subst hl
    have hpt : p.2 ≤ t := hh p (by simp [List.head?])
    have hte : t = p.2 := le_antisymm (hl1 ▸ ht1) hpt
    simp only [quantileList, interpolate]
    rw [if_neg (lt_irrefl p.1)]
    exact hte.symm
  | p :: q :: rest, t, pl, hfst, hsnd, hl, hl1, hh, ht1 => by
    have hpq : p.1 < q.1 := (List.pairwise_cons.mp hfst).1 q (by simp)
    have hpq2 : p.2 < q.2 := (List.pairwise_cons.mp hsnd).1 q (by simp)
    have hfstT := (List.pairwise_cons.mp hfst).2
    have hsndT := (List.pairwise_cons.mp hsnd).2
    have hpt : p.2 ≤ t := hh p (by simp [List.head?])
    rw [List.getLast?_cons_cons] at hl
    simp only [quantileList]
    by_cases h1 : t ≤ p.2
    · rw [if_pos h1]
      have hte : t = p.2 := le_antisymm h1 hpt
      rw [interp_at_head p (q :: rest) hfst]
      exact hte.symm
    · rw [if_neg h1]
      have hp2t : p.2 < t := not_le.mp h1
      by_cases h2 : t ≤ q.2
      · rw [if_pos h2]
        set s : ℚ := (t - p.2) / (q.2 - p.2) with hs
        have hs0 : 0 < s := div_pos (by linarith) (by linarith)
        have hs1 : s ≤ 1 := by
          rw [hs, div_le_one (by linarith)]
          linarith
        set xh : ℚ := p.1 + s * (q.1 - p.1) with hx
        have hxgt : p.1 < xh := by
          have : 0 < s * (q.1 - p.1) := mul_pos hs0 (by linarith)
          rw [hx]
          linarith
        have hxle : xh ≤ q.1 := by
          rw [hx]
          nlinarith
        have hA : q.1 - p.1 ≠ 0 := ne_of_gt (by linarith)
        have hB : q.2 - p.2 ≠ 0 := ne_of_gt (by linarith)
        by_cases h3 : xh < q.1
        · simp only [interpolate]
          rw [if_neg (not_lt.mpr (le_of_lt hxgt)), if_pos h3]
          have hred : (xh - p.1) / (q.1 - p.1) = s := by
            rw [hx]
            have h9 : p.1 + s * (q.1 - p.1) - p.1 = s * (q.1 - p.1) := by
              ring
            rw [h9, mul_div_assoc, div_self hA, mul_one]
          rw [hred, hs, div_mul_cancel₀ _ hB]
          ring
        · have hxe : xh = q.1 := le_antisymm hxle (not_lt.mp h3)
          have hseq : s = 1 := by
            have h9 : s * (q.1 - p.1) = 1 * (q.1 - p.1) := by
              rw [hx] at hxe
              linarith
            exact mul_right_cancel₀ hA h9
          have h11 : t - p.2 = s * (q.2 - p.2) := by
            rw [hs, div_mul_cancel₀ _ hB]
          have hte : t = q.2 := by
            rw [hseq] at h11
            linarith
          simp only [interpolate]
          rw [if_neg (not_lt.mpr (le_of_lt hxgt)), if_neg h3, hxe]
          rw [interp_at_head q rest hfstT]
          exact hte.symm
      · rw [if_neg h2]
        have hq2t : q.2 < t := not_le.mp h2
        have hxge : q.1 ≤ quantileList (q :: rest) t :=
          quantileList_ge_head q rest t hfstT hsndT
        simp only [interpolate]
        rw [if_neg (not_lt.mpr (by linarith)), if_neg (not_lt.mpr hxge)]
        exact interp_quantile_eq (q :: rest) t pl hfstT hsndT hl hl1
          (fun p0 hp0 => by
            simp only [List.head?, Option.mem_def, Option.some_inj] at hp0
            subst hp0
            exact le_of_lt hq2t) ht1

/-! ### Digest-level cdf and quantile facts -/

theorem cdf_mono_of_wf (d : TDigest) (hd : WF d) (x1 x2 : ℚ) (hx : x1 ≤ x2) :
    d.cdf x1 ≤ d.cdf x2 :=
  interp_mono d.cdfPoints x1 x2 (cdfPoints_fst_sorted d hd)
    (cdfPoints_snd_sorted d hd)
    (fun p hp => (cdfPoints_snd_mem d hd p hp).1) hx

theorem cdf_nonneg_of_wf (d : TDigest) (hd : WF d) (x : ℚ) :
    0 ≤ d.cdf x :=
  interp_nonneg d.cdfPoints x (cdfPoints_fst_sorted d hd)
    (cdfPoints_snd_sorted d hd)
    (fun p hp => (cdfPoints_snd_mem d hd p hp).1)

theorem cdf_le_one_of_wf (d : TDigest) (hd : WF d) (x : ℚ) :
    d.cdf x ≤ 1 :=
  interp_le_one d.cdfPoints x (cdfPoints_fst_sorted d hd)
    (cdfPoints_snd_sorted d hd)
    (fun p hp => (cdfPoints_snd_mem d hd p hp).2)

theorem quantile_empty (d : TDigest) (he : d.cs = []) (q : ℚ) :
    d.quantile q = 0 := by
  simp [TDigest.quantile, TDigest.cdfPoints, he, cdfPointsAux, quantileList]

theorem quantile_ge_head_of_wf (d : TDigest) (hd : WF d) (q : ℚ) :
    ∀ cf ∈ d.cs.head?, cf.mean ≤ d.quantile q := by
  intro cf hcf
  rcases heq : d.cs with _ | ⟨c, rest⟩
  · rw [heq] at hcf
    simp at hcf
  · rw [heq] at hcf
    simp only [List.head?, Option.mem_def, Option.some_inj] at hcf
    subst hcf
    have hfst := cdfPoints_fst_sorted d hd
    have hsnd := cdfPoints_snd_sorted d hd
    have hshape : d.cdfPoints = (c.mean, (0 + c.weight) / wsum (c :: rest)) ::
        cdfPointsAux (wsum (c :: rest)) (0 + c.weight) rest := by
      rw [TDigest.cdfPoints, heq]
      rfl
    rw [TDigest.quantile, hshape]
    rw [hshape] at hfst hsnd
    exact quantileList_ge_head _ _ q hfst hsnd

theorem quantile_le_last_of_wf (d : TDigest) (hd : WF d) (q : ℚ) :
    ∀ cl ∈ d.cs.getLast?, d.quantile q ≤ cl.mean := by
  intro cl hcl
  have hpl := cdfPoints_getLast_one d hd cl (Option.mem_def.mp hcl)
  exact quantileList_le_last d.cdfPoints q (cl.mean, 1) hpl
    (cdfPoints_fst_sorted d hd) (cdfPoints_snd_sorted d hd)

theorem cdf_quantile_eq_of_wf (d : TDigest) (hd : WF d) (cl : Centroid)
    (hcl : d.cs.getLast? = some cl) (q : ℚ) (hq1 : q ≤ 1)
    (hq0 : ∀ p0 ∈ d.cdfPoints.head?, p0.2 ≤ q) :
    d.cdf (d.quantile q) = q :=
  interp_quantile_eq d.cdfPoints q (cl.mean, 1) (cdfPoints_fst_sorted d hd)
    (cdfPoints_snd_sorted d hd) (cdfPoints_getLast_one d hd cl hcl) rfl
    hq0 hq1

/-! ### Anomaly scores -/

theorem floorEps_pos : 0 < floorEps := by
  rw [floorEps]
  positivity

theorem floorEps_le_one : floorEps ≤ 1 := by
  rw [floorEps]
  rw [inv_le_one_iff₀]
  right
  norm_num

theorem anomaly_arg_pos (d : TDigest) (x : ℚ) :
    0 < max (1 - ((d.cdf x : ℚ) : ℝ)) floorEps :=
  lt_of_lt_of_le floorEps_pos (le_max_right _ _)

theorem anomaly_mono_of_wf (d : TDigest) (hd : WF d) (x1 x2 : ℚ)
    (hx : x1 ≤ x2) :
    TDigestAnomalyDetector.anomaly d x1 ≤ TDigestAnomalyDetector.anomaly d x2 := by
  have hc : d.cdf x1 ≤ d.cdf x2 := cdf_mono_of_wf d hd x1 x2 hx
  have hcR : ((d.cdf x1 : ℚ) : ℝ) ≤ ((d.cdf x2 : ℚ) : ℝ) := by
    exact_mod_cast hc
  have hmax : max (1 - ((d.cdf x2 : ℚ) : ℝ)) floorEps ≤
      max (1 - ((d.cdf x1 : ℚ) : ℝ)) floorEps :=
    max_le_max (by linarith) (le_refl _)
  have hlog := Real.log_le_log (anomaly_arg_pos d x2) hmax
  simp only [TDigestAnomalyDetector.anomaly]
  linarith

theorem anomaly_nonneg_of_wf (d : TDigest) (hd : WF d) (x : ℚ) :
    0 ≤ TDigestAnomalyDetector.anomaly d x := by
  have hc : 0 ≤ d.cdf x := cdf_nonneg_of_wf d hd x
  have hcR : (0 : ℝ) ≤ ((d.cdf x : ℚ) : ℝ) := by exact_mod_cast hc
  have harg : max (1 - ((d.cdf x : ℚ) : ℝ)) floorEps ≤ 1 :=
    max_le (by linarith) floorEps_le_one
  have hlog := Real.log_nonpos (le_of_lt (anomaly_arg_pos d x)) harg
  simp only [TDigestAnomalyDetector.anomaly]
  linarith

theorem anomaly_saturate (d : TDigest) (x : ℚ) (h : d.cdf x = 1) :
    TDigestAnomalyDetector.anomaly d x = -Real.log floorEps := by
  simp only [TDigestAnomalyDetector.anomaly, h]
  norm_num
  rw [max_eq_right (le_of_lt floorEps_pos)]

theorem neg_log_floorEps : -Real.log floorEps = 100 * Real.log 10 := by
  rw [floorEps, Real.log_inv, Real.log_pow]
  norm_num

theorem ev_anomaly_arg_pos (d : TDigest) (xmax : ℚ) (n : ℕ) :
    0 < max (1 - ((d.cdf xmax : ℚ) : ℝ) ^ n) floorEps :=
  lt_of_lt_of_le floorEps_pos (le_max_right _ _)

theorem ev_anomaly_anti (d : TDigest) (xmax : ℚ)
    (hc0 : 0 ≤ d.cdf xmax) (hc1 : d.cdf xmax ≤ 1) (n1 n2 : ℕ) (h : n1 ≤ n2) :
    ExtremeValueAnomalyDetector.anomaly d xmax n2 ≤
      ExtremeValueAnomalyDetector.anomaly d xmax n1 := by
  have hc0R : (0 : ℝ) ≤ ((d.cdf xmax : ℚ) : ℝ) := by exact_mod_cast hc0
  have hc1R : ((d.cdf xmax : ℚ) : ℝ) ≤ 1 := by exact_mod_cast hc1
  have hpow : ((d.cdf xmax : ℚ) : ℝ) ^ n2 ≤ ((d.cdf xmax : ℚ) : ℝ) ^ n1 :=
    pow_le_pow_of_le_one hc0R hc1R h
  have hmax : max (1 - ((d.cdf xmax : ℚ) : ℝ) ^ n1) floorEps ≤
      max (1 - ((d.cdf xmax : ℚ) : ℝ) ^ n2) floorEps :=
    max_le_max (by linarith) (le_refl _)
  have hlog := Real.log_le_log (ev_anomaly_arg_pos d xmax n1) hmax
  simp only [ExtremeValueAnomalyDetector.anomaly]
  linarith

theorem ev_anomaly_range (d : TDigest) (xmax : ℚ)
    (hc0 : 0 ≤ d.cdf xmax) (hc1 : d.cdf xmax ≤ 1) (n : ℕ) :
    0 ≤ ExtremeValueAnomalyDetector.anomaly d xmax n ∧
      ExtremeValueAnomalyDetector.anomaly d xmax n ≤ -Real.log floorEps := by
  have hc0R : (0 : ℝ) ≤ ((d.cdf xmax : ℚ) : ℝ) := by exact_mod_cast hc0
  have hpow0 : (0 : ℝ) ≤ ((d.cdf xmax : ℚ) : ℝ) ^ n := pow_nonneg hc0R n
  constructor
  · have harg : max (1 - ((d.cdf xmax : ℚ) : ℝ) ^ n) floorEps ≤ 1 :=
      max_le (by linarith) floorEps_le_one
    have hlog := Real.log_nonpos (le_of_lt (ev_anomaly_arg_pos d xmax n)) harg
    simp only [ExtremeValueAnomalyDetector.anomaly]
    linarith
  · have hlog := Real.log_le_log floorEps_pos
      (le_max_right (1 - ((d.cdf xmax : ℚ) : ℝ) ^ n) floorEps)
    simp only [ExtremeValueAnomalyDetector.anomaly]
    linarith

/-! ### Euclidean normalization -/

theorem sumSqR_nil : sumSqR [] = 0 := by
  simp [sumSqR]

theorem sumSqR_cons (a : ℝ) (t : List ℝ) :
    sumSqR (a :: t) = a * a + sumSqR t := by
  simp [sumSqR]

theorem sumSq_nil : sumSq [] = 0 := by
  simp [sumSq]

theorem sumSq_cons (a : ℚ) (t : List ℚ) :
    sumSq (a :: t) = a * a + sumSq t := by
  simp [sumSq]

theorem sumSqR_map_cast :
    ∀ v : List ℚ, sumSqR (v.map (fun q => ((q : ℚ) : ℝ))) = ((sumSq v : ℚ) : ℝ)
  | [] => by simp [sumSqR, sumSq]
  | a :: t => by
    simp only [List.map_cons, sumSqR_cons, sumSq_cons,
      sumSqR_map_cast t]
    push_cast
    ring

theorem sumSqR_map_div (z : ℝ) :
    ∀ v : List ℚ,
      sumSqR (v.map (fun q => ((q : ℚ) : ℝ) / z)) = ((sumSq v : ℚ) : ℝ) / z ^ 2
  | [] => by simp [sumSqR, sumSq]
  | a :: t => by
    simp only [List.map_cons, sumSqR_cons, sumSq_cons,
      sumSqR_map_div z t]
    push_cast
    ring

theorem normarray_zero (v : List ℚ) (h : sumSq v = 0) :
    normarray v = v.map (fun q => ((q : ℚ) : ℝ)) := by
  simp only [normarray, h]
  norm_num

theorem normarray_unit (v : List ℚ) (h : 0 < sumSq v) :
    Real.sqrt (sumSqR (normarray v)) = 1 := by
  have hS : (0 : ℝ) < ((sumSq v : ℚ) : ℝ) := by exact_mod_cast h
  have hz : 0 < Real.sqrt ((sumSq v : ℚ) : ℝ) := Real.sqrt_pos.mpr hS
  simp only [normarray]
  rw [if_pos hz, sumSqR_map_div, Real.sq_sqrt (le_of_lt hS),
    div_self (ne_of_gt hS)]
  exact Real.sqrt_one

theorem hashing_frequency_norm_eq (vecsize : ℕ) (h : String → ℕ) (norm : ℚ)
    (input : HFInput) (hnorm : 0 < norm)
    (hS : 0 < sumSq (hfCounts vecsize h (hfWords input))) :
    Real.sqrt (sumSqR (hashing_frequency vecsize h norm input)) =
      ((norm : ℚ) : ℝ) := by
  have hSR : (0 : ℝ) < ((sumSq (hfCounts vecsize h (hfWords input)) : ℚ) : ℝ) := by
    exact_mod_cast hS
  have hnR : (0 : ℝ) < ((norm : ℚ) : ℝ) := by exact_mod_cast hnorm
  have hz : 0 < Real.sqrt ((sumSq (hfCounts vecsize h (hfWords input)) : ℚ) : ℝ) /
      ((norm : ℚ) : ℝ) :=
    div_pos (Real.sqrt_pos.mpr hSR) hnR
  have h1 : ((sumSq (hfCounts vecsize h (hfWords input)) : ℚ) : ℝ) ≠ 0 :=
    ne_of_gt hSR
  have h2 : ((norm : ℚ) : ℝ) ≠ 0 := ne_of_gt hnR
  simp only [hashing_frequency]
  rw [if_pos hz, sumSqR_map_div]
  have harg : ((sumSq (hfCounts vecsize h (hfWords input)) : ℚ) : ℝ) /
      (Real.sqrt ((sumSq (hfCounts vecsize h (hfWords input)) : ℚ) : ℝ) /
        ((norm : ℚ) : ℝ)) ^ 2 = ((norm : ℚ) : ℝ) ^ 2 := by
    rw [div_pow, Real.sq_sqrt (le_of_lt hSR)]
    field_simp
  rw [harg]
  exact Real.sqrt_sq (le_of_lt hnR)

/-! ### Miscellaneous helpers for the claim statements -/

theorem sum_map_one (xs : List ℚ) :
    (xs.map (fun _ => (1 : ℚ))).sum = xs.length := by
  induction xs with
  | nil => simp
  | cons a t ih =>
    simp only [List.map_cons, List.sum_cons, List.length_cons, ih]
    push_cast
    ring

/-! ### The claims -/

/-- C1: for every digest state reachable from `new δ` (with `δ > 0`) by
valid updates, `cdf` is a monotone non-decreasing map into `[0, 1]`
(for all `x1 < x2`, `0 ≤ cdf x1 ≤ cdf x2 ≤ 1`), and for every
`q ∈ [0, 1]` the quantile is a finite rational — `0` for the empty
digest and otherwise squeezed between the lowest and highest centroid
means.  `cdf` is a pure function of the digest state, so it is
deterministic by construction. -/
theorem C1_cdf_monotone_range_quantile_finite (δ : ℚ) (xs : List (ℚ × ℚ))
    (hδ : 0 < δ) (hw : ∀ p ∈ xs, 0 < p.2) :
    (∀ x1 x2 : ℚ, x1 < x2 →
      0 ≤ (reach δ xs).cdf x1 ∧ (reach δ xs).cdf x1 ≤ (reach δ xs).cdf x2 ∧
        (reach δ xs).cdf x2 ≤ 1) ∧
    (∀ q : ℚ, 0 ≤ q → q ≤ 1 →
      ((reach δ xs).cs = [] → (reach δ xs).quantile q = 0) ∧
      (∀ cf ∈ (reach δ xs).cs.head?, cf.mean ≤ (reach δ xs).quantile q) ∧
      (∀ cl ∈ (reach δ xs).cs.getLast?, (reach δ xs).quantile q ≤ cl.mean)) := by
  have hwf := wf_reach δ xs hδ hw
  exact ⟨fun x1 x2 hx => ⟨cdf_nonneg_of_wf _ hwf x1,
    cdf_mono_of_wf _ hwf x1 x2 (le_of_lt hx), cdf_le_one_of_wf _ hwf x2⟩,
    fun q _ _ => ⟨fun he => quantile_empty _ he q,
      quantile_ge_head_of_wf _ hwf q, quantile_le_last_of_wf _ hwf q⟩⟩

theorem C1_witness :
    0 ≤ (reach (1/2) [((1:ℚ),(1:ℚ)), (2,1)]).cdf 0 ∧
    (reach (1/2) [((1:ℚ),(1:ℚ)), (2,1)]).cdf 0 ≤
      (reach (1/2) [((1:ℚ),(1:ℚ)), (2,1)]).cdf 3 ∧
    (reach (1/2) [((1:ℚ),(1:ℚ)), (2,1)]).cdf 3 ≤ 1 := by
  have h := C1_cdf_monotone_range_quantile_finite (1/2)
    [((1:ℚ),(1:ℚ)), (2,1)] (by norm_num) (by decide)
  exact h.1 0 3 (by norm_num)

/-- C2: every valid `update(x, w)` adds exactly `w` to the total
internal weight, and after `n` unit-weight updates starting from
`new δ` (no merges) the total internal weight equals `n`. -/
theorem C2_mass_conservation (δ : ℚ) (hδ : 0 < δ) :
    (∀ (d : TDigest) (x w : ℚ), 0 < w →
      (d.update x w).totalWeight = d.totalWeight + w) ∧
    (∀ xs : List ℚ,
      (reach δ (xs.map (fun x => (x, (1 : ℚ))))).totalWeight = xs.length) := by
  constructor
  · intro d x w _
    exact update_totalWeight d x w
  · intro xs
    rw [reach_totalWeight, List.map_map]
    exact sum_map_one xs

theorem C2_witness :
    ((TDigest.new (1/2)).update 3 2).totalWeight =
      (TDigest.new (1/2)).totalWeight + 2 ∧
    (reach (1/2) (([1, 2, 3] : List ℚ).map (fun x => (x, (1 : ℚ))))).totalWeight =
      ([1, 2, 3] : List ℚ).length := by
  have h := C2_mass_conservation (1/2) (by norm_num)
  exact ⟨h.1 (TDigest.new (1/2)) 3 2 (by norm_num), h.2 [1, 2, 3]⟩

/-- C3: `new`, `update` and `quantile` reject every malformed input
(NaN or infinite scalar, non-positive weight or compression, quantile
outside `[0, 1]`) synchronously with `InvalidArgument` instead of
clamping or silently succeeding, and a failed call leaves the digest
unchanged: a call sequence containing the failing call drives the
digest to exactly the state of the same sequence without it. -/
theorem C3_fail_fast :
    (∀ c : FVal, validNewArg c = false →
      TDigest.newChecked c = Except.error TDError.invalidArgument) ∧
    (∀ (d : TDigest) (x w : FVal), validUpdArgs x w = false →
      d.updateChecked x w = Except.error TDError.invalidArgument) ∧
    (∀ (d : TDigest) (q : FVal), validQuantArg q = false →
      d.quantileChecked q = Except.error TDError.invalidArgument) ∧
    (∀ (d : TDigest) (pre post : List UpdCall) (c : UpdCall),
      validUpdArgs c.x c.w = false →
      runCalls d (pre ++ c :: post) = runCalls d (pre ++ post)) :=
  ⟨newChecked_invalid, updateChecked_invalid, quantileChecked_invalid,
    runCalls_skip_invalid⟩

theorem C3_witness :
    TDigest.newChecked FVal.nan = Except.error TDError.invalidArgument ∧
    (TDigest.new 1).updateChecked (FVal.fin 1) (FVal.fin 0) =
      Except.error TDError.invalidArgument ∧
    (TDigest.new 1).quantileChecked (FVal.fin 2) =
      Except.error TDError.invalidArgument ∧
    runCalls (TDigest.new 1) [⟨FVal.fin 1, FVal.nan⟩] =
      runCalls (TDigest.new 1) [] := by
  refine ⟨C3_fail_fast.1 FVal.nan rfl, C3_fail_fast.2.1 _ _ _ rfl,
    C3_fail_fast.2.2.1 _ _ rfl, ?_⟩
  have h4 := C3_fail_fast.2.2.2 (TDigest.new 1) [] []
    ⟨FVal.fin 1, FVal.nan⟩ rfl
  simpa using h4

/-- C4: `TDigestAnomalyDetector.anomaly` equals
`-log(max(1 - cdf x, 1e-100))` exactly; over every digest reachable by
valid updates (in particular one built over Gamma(1.0) samples) it is
non-decreasing in `x` — so in particular along `x = 0, 5, 10, 15, 20,
25` — never negative, and once `cdf x` reaches `1` it saturates at the
constant `-log(1e-100) = 100·log 10 ≈ 230.26`. -/
theorem C4_anomaly_score (δ : ℚ) (xs : List (ℚ × ℚ)) (hδ : 0 < δ)
    (hw : ∀ p ∈ xs, 0 < p.2) :
    (∀ x : ℚ, TDigestAnomalyDetector.anomaly (reach δ xs) x =
      -Real.log (max (1 - (((reach δ xs).cdf x : ℚ) : ℝ)) floorEps)) ∧
    (∀ x1 x2 : ℚ, x1 ≤ x2 →
      TDigestAnomalyDetector.anomaly (reach δ xs) x1 ≤
        TDigestAnomalyDetector.anomaly (reach δ xs) x2) ∧
    (∀ x : ℚ, 0 ≤ TDigestAnomalyDetector.anomaly (reach δ xs) x) ∧
    (∀ x : ℚ, (reach δ xs).cdf x = 1 →
      TDigestAnomalyDetector.anomaly (reach δ xs) x = -Real.log floorEps) ∧
    -Real.log floorEps = 100 * Real.log 10 := by
  have hwf := wf_reach δ xs hδ hw
  exact ⟨fun x => rfl,
    fun x1 x2 hx => anomaly_mono_of_wf _ hwf x1 x2 hx,
    fun x => anomaly_nonneg_of_wf _ hwf x,
    fun x hx => anomaly_saturate _ x hx,
    neg_log_floorEps⟩

theorem C4_witness :
    TDigestAnomalyDetector.anomaly (reach (1/2) [((1:ℚ),(1:ℚ))]) 0 ≤
      TDigestAnomalyDetector.anomaly (reach (1/2) [((1:ℚ),(1:ℚ))]) 5 ∧
    TDigestAnomalyDetector.anomaly (reach (1/2) [((1:ℚ),(1:ℚ))]) 5 =
      -Real.log floorEps := by
  have h := C4_anomaly_score (1/2) [((1:ℚ),(1:ℚ))] (by norm_num) (by decide)
  have hsat : (reach (1/2) [((1:ℚ),(1:ℚ))]).cdf 5 = 1 := by
    have hr : reach (1/2) [((1:ℚ),(1:ℚ))] = ⟨1/2, [⟨1,1⟩]⟩ := by
      norm_num [reach, TDigest.new, TDigest.update, updGo, wsum, maxCentroids]
    rw [hr]
    norm_num [TDigest.cdf, TDigest.cdfPoints, cdfPointsAux, wsum, interpolate]
  exact ⟨h.2.1 0 5 (by norm_num), h.2.2.2.1 5 hsat⟩

/-- C5: for every reachable digest and every `q ∈ [0, 1]` away from the
extremes (at or above the first interpolation node's ordinate), the
round-trip error `|cdf (quantile q) - q|` is bounded by the compression
parameter `δ` — a tolerance that shrinks as compression tightens.  (In
this interpolation model the round-trip is in fact exact on that range;
`quantile (cdf x)` is still not required to recover `x`.) -/
theorem C5_roundtrip (δ : ℚ) (xs : List (ℚ × ℚ)) (hδ : 0 < δ)
    (hw : ∀ p ∈ xs, 0 < p.2) (cl : Centroid)
    (hcl : (reach δ xs).cs.getLast? = some cl) (q : ℚ) (hq1 : q ≤ 1)
    (hq0 : ∀ p0 ∈ (reach δ xs).cdfPoints.head?, p0.2 ≤ q) :
    |(reach δ xs).cdf ((reach δ xs).quantile q) - q| ≤ δ := by
  have hwf := wf_reach δ xs hδ hw
  rw [cdf_quantile_eq_of_wf _ hwf cl hcl q hq1 hq0]
  simp only [sub_self, abs_zero]
  exact le_of_lt hδ

theorem C5_witness :
    |(reach (1/2) [((1:ℚ),(1:ℚ)), (2,1)]).cdf
        ((reach (1/2) [((1:ℚ),(1:ℚ)), (2,1)]).quantile (3/4)) - 3/4| ≤ 1/2 := by
  have hr : reach (1/2) [((1:ℚ),(1:ℚ)), (2,1)] = ⟨1/2, [⟨1,1⟩, ⟨2,1⟩]⟩ := by
    norm_num [reach, TDigest.new, TDigest.update, updGo, wsum, maxCentroids,
      fits, sizeBound]
  refine C5_roundtrip (1/2) [((1:ℚ),(1:ℚ)), (2,1)] (by norm_num) (by decide)
    ⟨2, 1⟩ (by rw [hr]; rfl) (3/4) (by norm_num) ?_
  intro p0 hp0
  have hh : (reach (1/2) [((1:ℚ),(1:ℚ)), (2,1)]).cdfPoints.head? =
      some (1, 1/2) := by
    rw [hr]
    norm_num [TDigest.cdfPoints, cdfPointsAux, wsum]
  rw [hh] at hp0
  simp only [Option.mem_def, Option.some_inj] at hp0
  subst hp0
  norm_num

/-- C6: for every digest reachable from `new δ` by valid updates —
arbitrary input order, including adversarial monotone streams — the
number of stored centroids is at most `2·⌈1/δ⌉ + 2`, a bound
proportional to `1/δ` and independent of the number of observations
absorbed; the state stores nothing but those centroids, so memory is
O(centroid count), never O(observation count). -/
theorem C6_centroid_bound (δ : ℚ) (xs : List (ℚ × ℚ)) (hδ : 0 < δ)
    (hw : ∀ p ∈ xs, 0 < p.2) :
    (reach δ xs).cs.length ≤ 2 * Nat.ceil (1 / δ) + 2 := by
  have h := reach_length δ xs hδ hw
  simpa [maxCentroids] using h

theorem C6_witness :
    (reach (1/2) [((1:ℚ),(1:ℚ)), (2,1), (3,1)]).cs.length ≤
      2 * Nat.ceil (1 / ((1:ℚ)/2)) + 2 :=
  C6_centroid_bound (1/2) [((1:ℚ),(1:ℚ)), (2,1), (3,1)] (by norm_num)
    (by decide)

/-- C7: in every digest state reachable by valid updates the centroid
sequence is strictly ascending in mean — no two centroids share a mean —
and this invariant is preserved by every operation, including in-place
absorption. -/
theorem C7_strictly_sorted (δ : ℚ) (xs : List (ℚ × ℚ)) (hδ : 0 < δ)
    (hw : ∀ p ∈ xs, 0 < p.2) :
    List.Pairwise meanLt (reach δ xs).cs :=
  (wf_reach δ xs hδ hw).2.1

theorem C7_witness :
    List.Pairwise meanLt (reach (1/2) [((1:ℚ),(1:ℚ)), (2,1), (1,1)]).cs :=
  C7_strictly_sorted (1/2) [((1:ℚ),(1:ℚ)), (2,1), (1,1)] (by norm_num)
    (by decide)

/-- C8: the `hf` closure returned by `hashing_frequency` accepts either
a space-delimited string or a token list, and the two shapes are
equivalent: on every string `s`, `hf s` equals `hf (s.split " ")` — the
string branch only pre-splits on single spaces and then runs the
identical token-list path. -/
theorem C8_string_tokens_equiv (vecsize : ℕ) (h : String → ℕ) (norm : ℚ)
    (s : String) :
    hashing_frequency vecsize h norm (HFInput.str s) =
      hashing_frequency vecsize h norm (HFInput.toks (pySplit s)) := rfl

/-- C9: the extreme-value anomaly score
`-log(max(1 - cdf(xmax)^n, 1e-100))` is monotone non-increasing in the
sample size `n` (for positive `n1 ≤ n2`,
`anomaly xmax n2 ≤ anomaly xmax n1`) whenever `cdf xmax ∈ [0, 1]`, and
it always lies in `[0, -log 1e-100]`. -/
theorem C9_ev_anomaly_monotone (d : TDigest) (xmax : ℚ)
    (hc0 : 0 ≤ d.cdf xmax) (hc1 : d.cdf xmax ≤ 1) :
    (∀ n1 n2 : ℕ, 0 < n1 → n1 ≤ n2 →
      ExtremeValueAnomalyDetector.anomaly d xmax n2 ≤
        ExtremeValueAnomalyDetector.anomaly d xmax n1) ∧
    (∀ n : ℕ, 0 ≤ ExtremeValueAnomalyDetector.anomaly d xmax n ∧
      ExtremeValueAnomalyDetector.anomaly d xmax n ≤ -Real.log floorEps) :=
  ⟨fun n1 n2 _ h12 => ev_anomaly_anti d xmax hc0 hc1 n1 n2 h12,
    fun n => ev_anomaly_range d xmax hc0 hc1 n⟩

theorem C9_witness :
    ExtremeValueAnomalyDetector.anomaly (reach (1/2) [((1:ℚ),(1:ℚ))]) 0 2 ≤
      ExtremeValueAnomalyDetector.anomaly (reach (1/2) [((1:ℚ),(1:ℚ))]) 0 1 ∧
    0 ≤ ExtremeValueAnomalyDetector.anomaly (reach (1/2) [((1:ℚ),(1:ℚ))]) 0 1 := by
  have h := C9_ev_anomaly_monotone (reach (1/2) [((1:ℚ),(1:ℚ))]) 0
    (by decide) (by decide)
  exact ⟨h.1 1 2 (by norm_num) (by norm_num), (h.2 1).1⟩

/-- C10: `normarray` (and the normalization step in
`hashing_frequency`) is total and never divides by zero: the division
is guarded by `z > 0`, so an all-zero vector passes through unchanged,
and otherwise the result has Euclidean norm `1` (respectively, norm
equal to the `norm` parameter). -/
theorem C10_normalization_safe (v : List ℚ) (vecsize : ℕ)
    (h : String → ℕ) (norm : ℚ) (input : HFInput) :
    (sumSq v = 0 → normarray v = v.map (fun q => ((q : ℚ) : ℝ))) ∧
    (0 < sumSq v → Real.sqrt (sumSqR (normarray v)) = 1) ∧
    (0 < norm → 0 < sumSq (hfCounts vecsize h (hfWords input)) →
      Real.sqrt (sumSqR (hashing_frequency vecsize h norm input)) =
        ((norm : ℚ) : ℝ)) :=
  ⟨normarray_zero v, normarray_unit v,
    fun h1 h2 => hashing_frequency_norm_eq vecsize h norm input h1 h2⟩

theorem C10_witness :
    normarray [(0 : ℚ), 0] = ([(0 : ℚ), 0]).map (fun q => ((q : ℚ) : ℝ)) ∧
    Real.sqrt (sumSqR (normarray [(3 : ℚ), 4])) = 1 ∧
    Real.sqrt (sumSqR (hashing_frequency 1 (fun _ => 0) 1
      (HFInput.toks ["a"]))) = (((1 : ℚ) : ℚ) : ℝ) := by
  have hcnt : 0 < sumSq (hfCounts 1 (fun _ => 0)
      (hfWords (HFInput.toks ["a"]))) := by
    have hf1 : List.filter (fun wrd => decide (0 < wrd.length)) ["a"] =
        ["a"] := by decide
    have h1 : hfCounts 1 (fun _ => 0) (hfWords (HFInput.toks ["a"])) = [1] := by
      norm_num [hfCounts, hfWords, incAt, hf1]
    rw [h1]
    norm_num [sumSq]
  refine ⟨(C10_normalization_safe [(0 : ℚ), 0] 1 (fun _ => 0) 1
      (HFInput.toks ["a"])).1 (by norm_num [sumSq]),
    (C10_normalization_safe [(3 : ℚ), 4] 1 (fun _ => 0) 1
      (HFInput.toks ["a"])).2.1 (by norm_num [sumSq]),
    (C10_normalization_safe [(0 : ℚ), 0] 1 (fun _ => 0) 1
      (HFInput.toks ["a"])).2.2 (by norm_num) hcnt⟩
